import Mathlib

/-!
Verification of the avdbs-t50 new-post discovery and deduplication pipeline.

The Python sources (main.py, main_t50.py, main_avdbs.py, crawler.py,
notifier.py, utils.py) are shallowly embedded below.  Strings are modelled
as lists of characters (`Str`), files as their character contents, and the
run of the pipeline coordinator as a list of observable events.  Library
functions from the Python standard library (urllib.parse, str methods,
file line iteration) are modelled at the level of the operations the
sources perform on them.
-/

set_option maxHeartbeats 1000000

abbrev Str := List Char

/-- Model of the default whitespace set of the Python str.strip method
(ASCII whitespace; exotic unicode spaces are not used by the program). -/
def isPySpace (c : Char) : Bool :=
  c = ' ' || c = '\t' || c = '\n' || c = '\r' || c = '\x0b' || c = '\x0c'

/-- Model of the Python str.strip method: drop whitespace from both ends. -/
def pyStrip (s : Str) : Str :=
  ((s.dropWhile isPySpace).reverse.dropWhile isPySpace).reverse

/-- Split a character sequence into lines at newline characters, dropping
the separators.  This models Python text-file line iteration followed by
a per-line strip: iteration keeps the trailing newline on each line and
yields no empty final piece, and strip removes the newline, so the two
agree on every stripped line. -/
def splitLines : Str → List Str
  | [] => []
  | c :: cs =>
    if c = '\n' then [] :: splitLines cs
    else
      match splitLines cs with
      | [] => [[c]]
      | l :: ls => (c :: l) :: ls

/-- From src/main.py, load_seen: returns the empty set when the reset flag
is set or no state file exists, otherwise the set of stripped non-blank
lines of the state file.  The Python set is represented by a list whose
membership relation is the observable. -/
def load_seen (resetSeen : Bool) (fileExists : Bool) (content : Str) : List Str :=
  if resetSeen then []
  else if fileExists = false then []
  else ((splitLines content).map pyStrip).filter (fun l => decide (l ≠ []))

/-- One key written as a line, as in the body of the write loop of
append_seen in src/main.py. -/
def encodeKeys : List Str → Str
  | [] => []
  | k :: ks => k ++ '\n' :: encodeKeys ks

/-- From src/main.py, append_seen: appends each key as one newline
terminated line to the state file; does nothing on an empty key list. -/
def append_seen (content : Str) (keys : List Str) : Str :=
  if keys = [] then content else content ++ encodeKeys keys

/-- A file is in ledger shape when it is empty or ends with a newline;
every file produced by append_seen from the empty file has this shape. -/
def fileOk (content : Str) : Prop :=
  content = [] ∨ ∃ g, content = g ++ ['\n']

theorem splitLines_ne_nil {s : Str} (h : s ≠ []) : splitLines s ≠ [] := by
  match s with
  | [] => exact absurd rfl h
  | c :: cs =>
    simp only [splitLines]
    by_cases hc : c = '\n'
    · simp [hc]
    · simp only [if_neg hc]
      cases splitLines cs <;> simp

theorem splitLines_append_of_endsNl (x z : Str) (hx : fileOk x) :
    splitLines (x ++ z) = splitLines x ++ splitLines z := by
  rcases hx with hx | ⟨g, hg⟩
  · simp [hx, splitLines]
  subst hg
  induction g with
  | nil => simp [splitLines]
  | cons c cs ih =>
    have hstep : ((c :: cs) ++ ['\n']) ++ z = c :: ((cs ++ ['\n']) ++ z) := by simp
    have hstep2 : (c :: cs) ++ ['\n'] = c :: (cs ++ ['\n']) := by simp
    rw [hstep, hstep2]
    by_cases hc : c = '\n'
    · simp only [splitLines, if_pos hc]
      rw [ih]
      simp
    · simp only [splitLines, if_neg hc]
      rw [ih]
      cases hsc : splitLines (cs ++ ['\n']) with
      | nil => exact absurd hsc (splitLines_ne_nil (by simp))
      | cons l ls => simp [hsc]

theorem splitLines_key_line (k y : Str) (hk : '\n' ∉ k) :
    splitLines (k ++ '\n' :: y) = k :: splitLines y := by
  induction k with
  | nil => simp [splitLines]
  | cons c cs ih =>
    have hc : c ≠ '\n' := by
      intro h; exact hk (by simp [h])
    have hcs : '\n' ∉ cs := by
      intro h; exact hk (by simp [h])
    have hstep : (c :: cs) ++ '\n' :: y = c :: (cs ++ '\n' :: y) := by simp
    rw [hstep]
    simp only [splitLines, if_neg hc]
    rw [ih hcs]

theorem encodeKeys_fileOk (keys : List Str) : fileOk (encodeKeys keys) := by
  induction keys with
  | nil => exact Or.inl rfl
  | cons k ks ih =>
    right
    rcases ih with h | ⟨g, hg⟩
    · exact ⟨k, by simp [encodeKeys, h]⟩
    · exact ⟨k ++ '\n' :: g, by simp [encodeKeys, hg]⟩

theorem fileOk_append (x y : Str) (hx : fileOk x) (hy : fileOk y) :
    fileOk (x ++ y) := by
  rcases hy with hy | ⟨g, hg⟩
  · simpa [hy] using hx
  · exact Or.inr ⟨x ++ g, by simp [hg]⟩

theorem fileOk_append_seen (content : Str) (keys : List Str)
    (h : fileOk content) : fileOk (append_seen content keys) := by
  unfold append_seen
  by_cases hk : keys = []
  · simpa [hk]
  · simp only [if_neg hk]
    exact fileOk_append _ _ h (encodeKeys_fileOk keys)

theorem encodeKeys_member_split (keys : List Str) (k : Str)
    (hmem : k ∈ keys) :
    ∃ pre suf, encodeKeys keys = pre ++ (k ++ '\n' :: suf) ∧ fileOk pre := by
  induction keys with
  | nil => cases hmem
  | cons k0 ks ih =>
    rcases List.mem_cons.mp hmem with h | h
    · subst h
      exact ⟨[], encodeKeys ks, by simp [encodeKeys], Or.inl rfl⟩
    · obtain ⟨pre, suf, heq, hok⟩ := ih h
      refine ⟨k0 ++ '\n' :: pre, suf, by simp [encodeKeys, heq], ?_⟩
      right
      rcases hok with hpre | ⟨g, hg⟩
      · exact ⟨k0, by simp [hpre]⟩
      · exact ⟨k0 ++ '\n' :: g, by simp [hg]⟩

theorem mem_splitLines_append_seen (file : Str) (keys : List Str) (k : Str)
    (hfile : fileOk file) (hmem : k ∈ keys) (hnl : '\n' ∉ k) :
    k ∈ splitLines (append_seen file keys) := by
  have hne : keys ≠ [] := by rintro rfl; cases hmem
  unfold append_seen
  rw [if_neg hne]
  obtain ⟨pre, suf, heq, hpre⟩ := encodeKeys_member_split keys k hmem
  rw [heq]
  rw [show file ++ (pre ++ (k ++ '\n' :: suf)) = (file ++ pre) ++ (k ++ '\n' :: suf) by
    simp]
  rw [splitLines_append_of_endsNl _ _ (fileOk_append _ _ hfile hpre)]
  rw [splitLines_key_line _ _ hnl]
  simp

theorem mem_splitLines_preserved (f : Str) (keys : List Str) (k : Str)
    (hfile : fileOk f) (hk : k ∈ splitLines f) :
    k ∈ splitLines (append_seen f keys) := by
  unfold append_seen
  by_cases h : keys = []
  · simpa [h]
  · rw [if_neg h, splitLines_append_of_endsNl _ _ hfile]
    exact List.mem_append_left _ hk

theorem mem_splitLines_foldl (batches : List (List Str)) (k : Str) (hnl : '\n' ∉ k) :
    ∀ f, fileOk f → (k ∈ splitLines f ∨ ∃ b ∈ batches, k ∈ b) →
    k ∈ splitLines (batches.foldl append_seen f) := by
  induction batches with
  | nil =>
    intro f _ h
    rcases h with h | ⟨b, hb, _⟩
    · simpa using h
    · cases hb
  | cons b bs ih =>
    intro f hf h
    simp only [List.foldl_cons]
    apply ih (append_seen f b) (fileOk_append_seen f b hf)
    rcases h with h | ⟨b2, hb2, hkb⟩
    · exact Or.inl (mem_splitLines_preserved f b k hf h)
    · rcases List.mem_cons.mp hb2 with heq | hb2
      · rw [heq] at hkb
        exact Or.inl (mem_splitLines_append_seen f b k hf hkb hnl)
      · exact Or.inr ⟨b2, hb2, hkb⟩

/-- C3: for every key k appended by any prior successful append (any batch of
any earlier run, the runs being the successive folded append_seen calls on the
persisted file starting from the empty file), k is a member of the set
returned by every subsequent load_seen, across process restarts, provided the
reset flag is not set and the file survives.  The key shape hypotheses record
that ledger keys are non-blank single-line strings, which holds for every key
the program writes. -/
theorem C3_ledger_durability (batches : List (List Str)) (k : Str)
    (hk : ∃ b ∈ batches, k ∈ b) (hnl : '\n' ∉ k) (hne : k ≠ [])
    (hstrip : pyStrip k = k) :
    k ∈ load_seen false true (batches.foldl append_seen []) := by
  unfold load_seen
  simp only [if_neg (by simp : ¬(False : Prop)), Bool.false_eq_true, if_false]
  have hline : k ∈ splitLines (batches.foldl append_seen []) :=
    mem_splitLines_foldl batches k hnl [] (Or.inl rfl) (Or.inr hk)
  rw [show (if (true = false) then ([] : List Str) else
      ((splitLines (batches.foldl append_seen [])).map pyStrip).filter
        (fun l => decide (l ≠ []))) = ((splitLines (batches.foldl append_seen [])).map
        pyStrip).filter (fun l => decide (l ≠ [])) by simp]
  apply List.mem_filter.mpr
  constructor
  · rw [← hstrip]
    exact List.mem_map_of_mem pyStrip hline
  · simpa using hne

def sampleKey : Str :=
  ("avdbs:t50:https://www.avdbs.com/board/12345").data

/-- Witness for C3 at a concrete ledger history of two runs. -/
theorem C3_ledger_durability_witness :
    '\n' ∉ sampleKey ∧ sampleKey ≠ [] ∧ pyStrip sampleKey = sampleKey ∧
    sampleKey ∈ load_seen false true
      ([[sampleKey], [("avdbs:t50:https://www.avdbs.com/board/99").data]].foldl
        append_seen []) :=
  ⟨by decide, by decide, by decide,
    C3_ledger_durability _ sampleKey ⟨[sampleKey], by simp, by simp⟩
      (by decide) (by decide) (by decide)⟩

/-! URL model.  The functions below model the parts of urllib.parse used by
canon_url_remove_noise in src/main.py: urlparse, urlunparse, parse_qsl with
keep_blank_values, and urlencode with the default quote_plus quoting, at the
level of character lists.  Control-character stripping and IPv6 bracket
validation, which the program never exercises, are not modelled. -/

def isAsciiAlpha (c : Char) : Bool :=
  (97 ≤ c.toNat && c.toNat ≤ 122) || (65 ≤ c.toNat && c.toNat ≤ 90)

def isAsciiDigit (c : Char) : Bool := 48 ≤ c.toNat && c.toNat ≤ 57

def isAsciiAlphanum (c : Char) : Bool := isAsciiAlpha c || isAsciiDigit c

/-- The characters the scheme recognizer of urlparse accepts. -/
def isSchemeChar (c : Char) : Bool :=
  isAsciiAlphanum c || c = '+' || c = '-' || c = '.'

/-- Model of the Python str.lower method on the ASCII range; the program
only lowercases validated ASCII scheme characters and compares lowered
query keys against an ASCII set, where this model agrees with Python. -/
def pyLowerChar (c : Char) : Char :=
  if 65 ≤ c.toNat && c.toNat ≤ 90 then Char.ofNat (c.toNat + 32) else c

def pyLower (s : Str) : Str := s.map pyLowerChar

/-- Split at the first occurrence of a character; none when absent. -/
def splitOnFirst (c : Char) : Str → Option (Str × Str)
  | [] => none
  | x :: xs =>
    if x = c then some ([], xs)
    else (splitOnFirst c xs).map (fun p => (x :: p.1, p.2))

structure UrlParts where
  scheme : Str
  netloc : Str
  path : Str
  params : Str
  query : Str
  fragment : Str
deriving DecidableEq

/-- Scheme recognition of urlparse: a valid scheme before the first colon
is split off and lowercased. -/
def schemeSplit (u : Str) : Str × Str :=
  match splitOnFirst ':' u with
  | none => ([], u)
  | some (pre, post) =>
    match pre with
    | [] => ([], u)
    | c :: cs =>
      if isAsciiAlpha c && (c :: cs).all isSchemeChar then (pyLower (c :: cs), post)
      else ([], u)

def isNetlocStop (c : Char) : Bool := c = '/' || c = '?' || c = '#'

/-- Netloc recognition of urlparse: after a leading double slash, up to the
next slash, question mark or hash. -/
def netlocSplit (u : Str) : Str × Str :=
  if u.take 2 = ['/', '/'] then
    ((u.drop 2).takeWhile (fun c => !isNetlocStop c),
     (u.drop 2).dropWhile (fun c => !isNetlocStop c))
  else ([], u)

/-- Fragment split of urlparse: at the first hash, if any. -/
def fragSplit (u : Str) : Str × Str :=
  match splitOnFirst '#' u with
  | some (a, b) => (a, b)
  | none => (u, [])

/-- Query split of urlparse: at the first question mark, if any. -/
def querySplit (u : Str) : Str × Str :=
  match splitOnFirst '?' u with
  | some (a, b) => (a, b)
  | none => (u, [])

/-- The suffix of a path after its last slash (the whole path without one). -/
def afterLastSlash (p : Str) : Str :=
  (p.reverse.takeWhile (fun c => c ≠ '/')).reverse

/-- Params split of urlparse: the part of the last path segment after its
first semicolon, when present. -/
def paramsSplit (p : Str) : Str × Str :=
  if '/' ∈ p then
    match splitOnFirst ';' (afterLastSlash p) with
    | some (a, b) => (p.take (p.length - (afterLastSlash p).length) ++ a, b)
    | none => (p, [])
  else
    match splitOnFirst ';' p with
    | some (a, b) => (a, b)
    | none => (p, [])

/-- Model of urllib.parse.urlparse. -/
def urlparseM (u : Str) : UrlParts :=
  let s1 := schemeSplit u
  let s2 := netlocSplit s1.2
  let s3 := fragSplit s2.2
  let s4 := querySplit s3.1
  let s5 := paramsSplit s4.1
  UrlParts.mk s1.1 s2.1 s5.1 s5.2 s4.2 s3.2

/-- Model of urllib.parse.urlunparse. -/
def urlunparseM (p : UrlParts) : Str :=
  let url0 := if p.params = [] then p.path else p.path ++ ';' :: p.params
  let url1 :=
    if p.netloc ≠ [] ∨ url0.take 2 = ['/', '/'] then
      let u2 := if url0 ≠ [] ∧ url0.head? ≠ some '/' then '/' :: url0 else url0
      '/' :: '/' :: (p.netloc ++ u2)
    else url0
  let url2 := if p.scheme = [] then url1 else p.scheme ++ ':' :: url1
  let url3 := if p.query = [] then url2 else url2 ++ '?' :: p.query
  if p.fragment = [] then url3 else url3 ++ '#' :: p.fragment

/-! Percent encoding and decoding with UTF-8, modelling quote_plus and
unquote_plus as used by urlencode and parse_qsl. -/

def utf8Bytes (n : Nat) : List Nat :=
  if n < 0x80 then [n]
  else if n < 0x800 then [0xC0 + n / 64, 0x80 + n % 64]
  else if n < 0x10000 then [0xE0 + n / 4096, 0x80 + (n / 64) % 64, 0x80 + n % 64]
  else [0xF0 + n / 262144, 0x80 + (n / 4096) % 64, 0x80 + (n / 64) % 64, 0x80 + n % 64]

def isCont (b : Nat) : Bool := 0x80 ≤ b && b < 0xC0

/-- One UTF-8 decoding step on a lead byte and the remaining bytes: it
yields the decoded code point, or the replacement code point on malformed
input as the errors replace policy does, together with the rest. -/
def utf8Step (b : Nat) (bs : List Nat) : Nat × List Nat :=
  if b < 0x80 then (b, bs)
  else if b < 0xC2 then (0xFFFD, bs)
  else if b < 0xE0 then
    match bs with
    | b2 :: bs2 =>
      if isCont b2 then ((b - 0xC0) * 64 + (b2 - 0x80), bs2) else (0xFFFD, bs)
    | [] => (0xFFFD, [])
  else if b < 0xF0 then
    match bs with
    | b2 :: b3 :: bs3 =>
      if isCont b2 && isCont b3 then
        let cp := (b - 0xE0) * 4096 + (b2 - 0x80) * 64 + (b3 - 0x80)
        if cp < 0x800 || (0xD800 ≤ cp && cp < 0xE000) then (0xFFFD, bs)
        else (cp, bs3)
      else (0xFFFD, bs)
    | _ => (0xFFFD, bs)
  else if b < 0xF5 then
    match bs with
    | b2 :: b3 :: b4 :: bs4 =>
      if isCont b2 && isCont b3 && isCont b4 then
        let cp := (b - 0xF0) * 262144 + (b2 - 0x80) * 4096
          + (b3 - 0x80) * 64 + (b4 - 0x80)
        if cp < 0x10000 || 0x110000 ≤ cp then (0xFFFD, bs)
        else (cp, bs4)
      else (0xFFFD, bs)
    | _ => (0xFFFD, bs)
  else (0xFFFD, bs)

theorem utf8Step_length (b : Nat) (bs : List Nat) :
    (utf8Step b bs).2.length ≤ bs.length := by
  unfold utf8Step
  repeat' split
  all_goals try simp_all
  all_goals repeat' split
  all_goals try simp_all
  all_goals try omega

/-- UTF-8 decoding steps driven by a fuel counter; each step consumes at
least the lead byte, so a fuel of the list length always suffices. -/
def utf8DecodeFuel : Nat → List Nat → List Nat
  | 0, _ => []
  | _, [] => []
  | fuel + 1, b :: bs =>
    (utf8Step b bs).1 :: utf8DecodeFuel fuel (utf8Step b bs).2

/-- UTF-8 decoding of a byte sequence to code points. -/
def utf8Decode (bs : List Nat) : List Nat := utf8DecodeFuel bs.length bs

theorem utf8DecodeFuel_congr : ∀ (f1 f2 : Nat) (bs : List Nat),
    bs.length ≤ f1 → bs.length ≤ f2 → utf8DecodeFuel f1 bs = utf8DecodeFuel f2 bs
  | 0, 0, _, _, _ => rfl
  | 0, _ + 1, bs, h1, _ => by
    cases bs with
    | nil => simp [utf8DecodeFuel]
    | cons b t => simp at h1
  | _ + 1, 0, bs, _, h2 => by
    cases bs with
    | nil => simp [utf8DecodeFuel]
    | cons b t => simp at h2
  | f1 + 1, f2 + 1, [], _, _ => by simp [utf8DecodeFuel]
  | f1 + 1, f2 + 1, b :: bs, h1, h2 => by
    simp only [utf8DecodeFuel]
    have hl := utf8Step_length b bs
    have hbs : bs.length ≤ f1 := by simp at h1; omega
    have hbs2 : bs.length ≤ f2 := by simp at h2; omega
    rw [utf8DecodeFuel_congr f1 f2 (utf8Step b bs).2 (by omega) (by omega)]

theorem utf8Decode_nil : utf8Decode [] = [] := rfl

theorem utf8Decode_cons (b : Nat) (bs : List Nat) :
    utf8Decode (b :: bs) = (utf8Step b bs).1 :: utf8Decode (utf8Step b bs).2 := by
  unfold utf8Decode
  simp only [List.length_cons, utf8DecodeFuel]
  rw [utf8DecodeFuel_congr bs.length (utf8Step b bs).2.length (utf8Step b bs).2
    (utf8Step_length b bs) le_rfl]

def utf8DecodeChars (bs : List Nat) : Str := (utf8Decode bs).map Char.ofNat

def hexDigitU (n : Nat) : Char :=
  if n < 10 then Char.ofNat ('0'.toNat + n) else Char.ofNat ('A'.toNat + n - 10)

def isHexDigit (c : Char) : Bool :=
  (48 ≤ c.toNat && c.toNat ≤ 57) || (97 ≤ c.toNat && c.toNat ≤ 102)
    || (65 ≤ c.toNat && c.toNat ≤ 70)

def hexVal (c : Char) : Nat :=
  if '0' ≤ c && c ≤ '9' then c.toNat - '0'.toNat
  else if 'a' ≤ c && c ≤ 'f' then c.toNat - 'a'.toNat + 10
  else c.toNat - 'A'.toNat + 10

def quoteByte (b : Nat) : Str := ['%', hexDigitU (b / 16), hexDigitU (b % 16)]

def quoteBytes : List Nat → Str
  | [] => []
  | b :: bs => quoteByte b ++ quoteBytes bs

/-- The always safe characters of urllib quoting; urlencode passes an empty
extra safe string, so exactly these stay unquoted. -/
def isQuoteSafe (c : Char) : Bool :=
  isAsciiAlphanum c || c = '_' || c = '.' || c = '-' || c = '~'

def quotePlusChar (c : Char) : Str :=
  if isQuoteSafe c then [c]
  else if c = ' ' then ['+']
  else quoteBytes (utf8Bytes c.toNat)

def quotePlus : Str → Str
  | [] => []
  | c :: cs => quotePlusChar c ++ quotePlus cs

inductive QTok where
  | raw (c : Char)
  | byte (b : Nat)
deriving DecidableEq

/-- Percent-escape recognition steps driven by a fuel counter; each step
consumes at least one character, so a fuel of the list length suffices. -/
def tokenizeF : Nat → Str → List QTok
  | 0, _ => []
  | _, [] => []
  | fuel + 1, c :: rest =>
    if c = '%' then
      match rest with
      | h1 :: h2 :: rest2 =>
        if isHexDigit h1 && isHexDigit h2 then
          QTok.byte (hexVal h1 * 16 + hexVal h2) :: tokenizeF fuel rest2
        else QTok.raw c :: tokenizeF fuel rest
      | _ => QTok.raw c :: tokenizeF fuel rest
    else QTok.raw c :: tokenizeF fuel rest

/-- Percent-escape recognition of unquote: a percent sign followed by two
hex digits becomes a byte, anything else stays a raw character. -/
def tokenize (s : Str) : List QTok := tokenizeF s.length s

theorem tokenizeF_nil : ∀ f, tokenizeF f [] = []
  | 0 => rfl
  | _ + 1 => rfl

theorem tokenizeF_raw (f : Nat) (c : Char) (rest : Str) (hc : c ≠ '%') :
    tokenizeF (f + 1) (c :: rest) = QTok.raw c :: tokenizeF f rest := by
  match rest with
  | [] =>
    show (if c = '%' then QTok.raw c :: tokenizeF f ([] : Str)
      else QTok.raw c :: tokenizeF f ([] : Str)) = QTok.raw c :: tokenizeF f []
    rw [if_neg hc]
  | [x] =>
    show (if c = '%' then QTok.raw c :: tokenizeF f [x]
      else QTok.raw c :: tokenizeF f [x]) = QTok.raw c :: tokenizeF f [x]
    rw [if_neg hc]
  | h1c :: h2c :: rest2 =>
    show (if c = '%' then
        (if (isHexDigit h1c && isHexDigit h2c) = true then
          QTok.byte (hexVal h1c * 16 + hexVal h2c) :: tokenizeF f rest2
        else QTok.raw c :: tokenizeF f (h1c :: h2c :: rest2))
      else QTok.raw c :: tokenizeF f (h1c :: h2c :: rest2))
      = QTok.raw c :: tokenizeF f (h1c :: h2c :: rest2)
    rw [if_neg hc]

theorem tokenizeF_pct_valid (f : Nat) (h1 h2 : Char) (rest : Str)
    (hh : (isHexDigit h1 && isHexDigit h2) = true) :
    tokenizeF (f + 1) ('%' :: h1 :: h2 :: rest)
      = QTok.byte (hexVal h1 * 16 + hexVal h2) :: tokenizeF f rest := by
  show (if (isHexDigit h1 && isHexDigit h2) = true then
      QTok.byte (hexVal h1 * 16 + hexVal h2) :: tokenizeF f rest
    else QTok.raw '%' :: tokenizeF f (h1 :: h2 :: rest))
    = QTok.byte (hexVal h1 * 16 + hexVal h2) :: tokenizeF f rest
  rw [if_pos hh]

theorem tokenizeF_pct_invalid (f : Nat) (h1 h2 : Char) (rest : Str)
    (hh : (isHexDigit h1 && isHexDigit h2) = false) :
    tokenizeF (f + 1) ('%' :: h1 :: h2 :: rest)
      = QTok.raw '%' :: tokenizeF f (h1 :: h2 :: rest) := by
  show (if (isHexDigit h1 && isHexDigit h2) = true then
      QTok.byte (hexVal h1 * 16 + hexVal h2) :: tokenizeF f rest
    else QTok.raw '%' :: tokenizeF f (h1 :: h2 :: rest))
    = QTok.raw '%' :: tokenizeF f (h1 :: h2 :: rest)
  rw [if_neg (by simp [hh])]

theorem tokenizeF_congr : ∀ (f1 f2 : Nat) (s : Str),
    s.length ≤ f1 → s.length ≤ f2 → tokenizeF f1 s = tokenizeF f2 s
  | f1, f2, [], _, _ => by rw [tokenizeF_nil, tokenizeF_nil]
  | 0, _, c :: rest, hl1, _ => by simp at hl1
  | _ + 1, 0, c :: rest, _, hl2 => by simp at hl2
  | f1 + 1, f2 + 1, c :: rest, hl1, hl2 => by
    simp only [List.length_cons, Nat.add_le_add_iff_right] at hl1 hl2
    by_cases hc : c = '%'
    · subst hc
      match rest, hl1, hl2 with
      | [], _, _ =>
        show QTok.raw '%' :: tokenizeF f1 [] = QTok.raw '%' :: tokenizeF f2 []
        rw [tokenizeF_nil, tokenizeF_nil]
      | [x], hl1, hl2 =>
        show QTok.raw '%' :: tokenizeF f1 [x] = QTok.raw '%' :: tokenizeF f2 [x]
        rw [tokenizeF_congr f1 f2 [x] (by simpa using hl1) (by simpa using hl2)]
      | h1c :: h2c :: rest2, hl1, hl2 =>
        by_cases hh : (isHexDigit h1c && isHexDigit h2c) = true
        · rw [tokenizeF_pct_valid f1 h1c h2c rest2 hh,
            tokenizeF_pct_valid f2 h1c h2c rest2 hh]
          rw [tokenizeF_congr f1 f2 rest2
            (by simp only [List.length_cons] at hl1; omega)
            (by simp only [List.length_cons] at hl2; omega)]
        · rw [tokenizeF_pct_invalid f1 h1c h2c rest2 (by simpa using hh),
            tokenizeF_pct_invalid f2 h1c h2c rest2 (by simpa using hh)]
          rw [tokenizeF_congr f1 f2 (h1c :: h2c :: rest2) hl1 hl2]
    · rw [tokenizeF_raw f1 c rest hc, tokenizeF_raw f2 c rest hc]
      rw [tokenizeF_congr f1 f2 rest hl1 hl2]

theorem tokenize_nil : tokenize [] = [] := rfl

theorem tokenize_raw (c : Char) (rest : Str) (hc : c ≠ '%') :
    tokenize (c :: rest) = QTok.raw c :: tokenize rest := by
  unfold tokenize
  simp only [List.length_cons]
  rw [tokenizeF_raw rest.length c rest hc]

theorem tokenize_pct_valid (h1 h2 : Char) (rest : Str)
    (hh : (isHexDigit h1 && isHexDigit h2) = true) :
    tokenize ('%' :: h1 :: h2 :: rest)
      = QTok.byte (hexVal h1 * 16 + hexVal h2) :: tokenize rest := by
  unfold tokenize
  simp only [List.length_cons]
  rw [tokenizeF_pct_valid (rest.length + 1 + 1) h1 h2 rest hh]
  rw [tokenizeF_congr (rest.length + 1 + 1) rest.length rest (by omega) le_rfl]

/-- Maximal byte runs are decoded as UTF-8, raw characters pass through,
as unquote does. -/
def regroupAux : List Nat → List QTok → Str
  | run, [] => utf8DecodeChars run.reverse
  | run, QTok.raw c :: ts => utf8DecodeChars run.reverse ++ c :: regroupAux [] ts
  | run, QTok.byte b :: ts => regroupAux (b :: run) ts

def plusToSpace (s : Str) : Str := s.map (fun c => if c = '+' then ' ' else c)

/-- Model of unquote_plus as parse_qsl applies it: plus signs become
spaces, percent escapes are decoded as UTF-8 byte runs. -/
def unquotePlus (s : Str) : Str := regroupAux [] (tokenize (plusToSpace s))

/-- Split on every occurrence of a character, as the Python str.split
method does: the empty string yields one empty piece. -/
def splitOnChar (c : Char) : Str → List Str
  | [] => [[]]
  | x :: xs =>
    if x = c then [] :: splitOnChar c xs
    else
      match splitOnChar c xs with
      | [] => [[x]]
      | l :: ls => (x :: l) :: ls

/-- One name-value field of a query string: empty fields are skipped, a
field without an equals sign keeps a blank value, and name and value are
unquoted. -/
def qslField (nv : Str) : Option (Str × Str) :=
  if nv = [] then none
  else
    match splitOnFirst '=' nv with
    | some (name, value) => some (unquotePlus name, unquotePlus value)
    | none => some (unquotePlus nv, [])

/-- Model of urllib.parse.parse_qsl with keep_blank_values set. -/
def parse_qslM (qs : Str) : List (Str × Str) :=
  (splitOnChar '&' qs).filterMap qslField

/-- Model of urllib.parse.urlencode on string pairs with doseq, which for
string values quotes key and value with quote_plus and joins with
ampersands and equals signs. -/
def urlencodeM : List (Str × Str) → Str
  | [] => []
  | (k, v) :: rest =>
    let piece := quotePlus k ++ '=' :: quotePlus v
    match rest with
    | [] => piece
    | _ :: _ => piece ++ '&' :: urlencodeM rest

/-- The query keys stripped by canonicalization in src/main.py. -/
def noiseKeys : List Str :=
  [("reply").data, ("sort").data, ("page").data, ("s").data, ("g").data]

def keepPair (kv : Str × Str) : Bool := decide (pyLower kv.1 ∉ noiseKeys)

/-- From src/main.py, canon_url_remove_noise: a URL without a query string
is returned unchanged; otherwise the query is reparsed, noise keys are
dropped, and the URL is reassembled with the re-encoded query. -/
def canon_url_remove_noise (u : Str) : Str :=
  let pr := urlparseM u
  if pr.query = [] then u
  else
    let kept := (parse_qslM pr.query).filter keepPair
    urlunparseM (UrlParts.mk pr.scheme pr.netloc pr.path pr.params
      (urlencodeM kept) pr.fragment)

def c5urlA : Str := ("https://www.avdbs.com/board/123?").data

def c5urlB : Str := ("https://www.avdbs.com/board/123?page=1").data

/-- C5 counterexample: the two URLs differ only in excluded query
parameters (all parsed components agree except the query string, and the
filtered query pair lists agree), yet canonicalization is not stable on
them: a URL with an empty query string after the question mark is returned
verbatim, while stripping the page parameter from the other rebuilds the
URL without the question mark. -/
theorem C5_counterexample :
    (urlparseM c5urlA).scheme = (urlparseM c5urlB).scheme ∧
    (urlparseM c5urlA).netloc = (urlparseM c5urlB).netloc ∧
    (urlparseM c5urlA).path = (urlparseM c5urlB).path ∧
    (urlparseM c5urlA).params = (urlparseM c5urlB).params ∧
    (urlparseM c5urlA).fragment = (urlparseM c5urlB).fragment ∧
    (parse_qslM (urlparseM c5urlA).query).filter keepPair
      = (parse_qslM (urlparseM c5urlB).query).filter keepPair ∧
    canon_url_remove_noise c5urlA ≠ canon_url_remove_noise c5urlB :=
  ⟨rfl, rfl, rfl, rfl, rfl, rfl, by decide⟩

/-- C5 amended: for all URLs u1 and u2 that differ only in the excluded
query parameters (same scheme, netloc, path, params and fragment, and
equal filtered query pair lists) and that both carry a non-empty query
string, canonicalization yields equal results.  The non-empty query
proviso is forced by the counterexample: a URL whose query is empty is
returned verbatim rather than reassembled. -/
theorem C5_canonicalization_stability (u1 u2 : Str)
    (hs : (urlparseM u1).scheme = (urlparseM u2).scheme)
    (hn : (urlparseM u1).netloc = (urlparseM u2).netloc)
    (hp : (urlparseM u1).path = (urlparseM u2).path)
    (hpar : (urlparseM u1).params = (urlparseM u2).params)
    (hf : (urlparseM u1).fragment = (urlparseM u2).fragment)
    (hq : (parse_qslM (urlparseM u1).query).filter keepPair
      = (parse_qslM (urlparseM u2).query).filter keepPair)
    (h1 : (urlparseM u1).query ≠ []) (h2 : (urlparseM u2).query ≠ []) :
    canon_url_remove_noise u1 = canon_url_remove_noise u2 := by
  unfold canon_url_remove_noise
  rw [if_neg h1, if_neg h2, hs, hn, hp, hpar, hf, hq]

/-- Witness for the amended C5 on two concrete URLs differing in one
excluded parameter each. -/
theorem C5_canonicalization_stability_witness :
    canon_url_remove_noise ("https://www.avdbs.com/board/77?a=1&page=2").data
      = canon_url_remove_noise ("https://www.avdbs.com/board/77?a=1&sort=9").data :=
  C5_canonicalization_stability _ _ rfl rfl rfl rfl rfl rfl
    (by decide) (by decide)

/-! Roundtrip of percent quoting followed by unquoting. -/

theorem charValid (c : Char) :
    c.toNat < 0xD800 ∨ (0xDFFF < c.toNat ∧ c.toNat < 0x110000) := c.valid

theorem utf8Step_enc1 (n : Nat) (h : n < 0x80) (rest : List Nat) :
    utf8Step n rest = (n, rest) := by
  unfold utf8Step
  rw [if_pos h]

theorem utf8Step_enc2 (n : Nat) (h1 : 0x80 ≤ n) (h2 : n < 0x800) (rest : List Nat) :
    utf8Step (0xC0 + n / 64) ((0x80 + n % 64) :: rest) = (n, rest) := by
  have e1 : ¬(0xC0 + n / 64 < 0x80) := by omega
  have e2 : ¬(0xC0 + n / 64 < 0xC2) := by omega
  have e3 : 0xC0 + n / 64 < 0xE0 := by omega
  have e4 : isCont (0x80 + n % 64) = true := by
    simp only [isCont, Bool.and_eq_true, decide_eq_true_eq]
    omega
  unfold utf8Step
  rw [if_neg e1, if_neg e2, if_pos e3]
  simp only [e4, if_true]
  have e5 : (0xC0 + n / 64 - 0xC0) * 64 + (0x80 + n % 64 - 0x80) = n := by omega
  rw [e5]

theorem utf8Step_enc3 (n : Nat) (h1 : 0x800 ≤ n) (h2 : n < 0x10000)
    (h3 : n < 0xD800 ∨ 0xDFFF < n) (rest : List Nat) :
    utf8Step (0xE0 + n / 4096)
      ((0x80 + (n / 64) % 64) :: (0x80 + n % 64) :: rest) = (n, rest) := by
  have e1 : ¬(0xE0 + n / 4096 < 0x80) := by omega
  have e2 : ¬(0xE0 + n / 4096 < 0xC2) := by omega
  have e3 : ¬(0xE0 + n / 4096 < 0xE0) := by omega
  have e4 : 0xE0 + n / 4096 < 0xF0 := by omega
  have e5 : (isCont (0x80 + (n / 64) % 64) && isCont (0x80 + n % 64)) = true := by
    simp only [isCont, Bool.and_eq_true, decide_eq_true_eq]
    omega
  unfold utf8Step
  rw [if_neg e1, if_neg e2, if_neg e3, if_pos e4]
  simp only [e5, if_true]
  have e6 : (0xE0 + n / 4096 - 0xE0) * 4096 + (0x80 + (n / 64) % 64 - 0x80) * 64
      + (0x80 + n % 64 - 0x80) = n := by omega
  rw [e6]
  have e7 : ¬(n < 0x800 ∨ 0xD800 ≤ n ∧ n < 0xE000) := by omega
  rw [if_neg (by simpa using e7)]

theorem utf8Step_enc4 (n : Nat) (h1 : 0x10000 ≤ n) (h2 : n < 0x110000)
    (rest : List Nat) :
    utf8Step (0xF0 + n / 262144)
      ((0x80 + (n / 4096) % 64) :: (0x80 + (n / 64) % 64) :: (0x80 + n % 64) :: rest)
      = (n, rest) := by
  have e1 : ¬(0xF0 + n / 262144 < 0x80) := by omega
  have e2 : ¬(0xF0 + n / 262144 < 0xC2) := by omega
  have e3 : ¬(0xF0 + n / 262144 < 0xE0) := by omega
  have e4 : ¬(0xF0 + n / 262144 < 0xF0) := by omega
  have e5 : 0xF0 + n / 262144 < 0xF5 := by omega
  have e6 : (isCont (0x80 + (n / 4096) % 64) && isCont (0x80 + (n / 64) % 64)
      && isCont (0x80 + n % 64)) = true := by
    simp only [isCont, Bool.and_eq_true, decide_eq_true_eq]
    omega
  unfold utf8Step
  rw [if_neg e1, if_neg e2, if_neg e3, if_neg e4, if_pos e5]
  simp only [e6, if_true]
  have e7 : (0xF0 + n / 262144 - 0xF0) * 262144 + (0x80 + (n / 4096) % 64 - 0x80) * 4096
      + (0x80 + (n / 64) % 64 - 0x80) * 64 + (0x80 + n % 64 - 0x80) = n := by omega
  rw [e7]
  have e8 : ¬((decide (n < 0x10000) || decide (0x110000 ≤ n)) = true) := by
    simp only [Bool.or_eq_true, decide_eq_true_eq]
    omega
  rw [if_neg e8]

theorem utf8Decode_enc (n : Nat) (hv : n < 0xD800 ∨ (0xDFFF < n ∧ n < 0x110000))
    (rest : List Nat) :
    utf8Decode (utf8Bytes n ++ rest) = n :: utf8Decode rest := by
  unfold utf8Bytes
  split_ifs with h1 h2 h3
  · simp only [List.cons_append, List.nil_append]
    rw [utf8Decode_cons, utf8Step_enc1 n h1]
  · simp only [List.cons_append, List.nil_append]
    rw [utf8Decode_cons, utf8Step_enc2 n (by omega) h2]
  · simp only [List.cons_append, List.nil_append]
    rw [utf8Decode_cons, utf8Step_enc3 n (by omega) h3 (by omega)]
  · simp only [List.cons_append, List.nil_append]
    rw [utf8Decode_cons, utf8Step_enc4 n (by omega) (by omega)]

theorem utf8Bytes_lt (n : Nat) (hn : n < 0x110000) :
    ∀ b ∈ utf8Bytes n, b < 256 := by
  intro b hb
  unfold utf8Bytes at hb
  split_ifs at hb with h1 h2 h3 <;> simp at hb <;> omega

theorem hex_round : ∀ m, m < 16 →
    isHexDigit (hexDigitU m) = true ∧ hexVal (hexDigitU m) = m := by decide

theorem hexDigitU_ne_plus : ∀ m, m < 16 → hexDigitU m ≠ '+' := by decide

theorem hexDigitU_ne_pct : ∀ m, m < 16 → hexDigitU m ≠ '%' := by decide

theorem tokenize_quoteByte (b : Nat) (hb : b < 256) (rest : Str) :
    tokenize (quoteByte b ++ rest) = QTok.byte b :: tokenize rest := by
  have hd : b / 16 < 16 := by omega
  have hm : b % 16 < 16 := by omega
  have h1 := hex_round (b / 16) hd
  have h2 := hex_round (b % 16) hm
  unfold quoteByte
  simp only [List.cons_append, List.nil_append]
  rw [tokenize_pct_valid _ _ _ (by rw [h1.1, h2.1]; rfl)]
  rw [h1.2, h2.2]
  have : b / 16 * 16 + b % 16 = b := by omega
  rw [this]

theorem plusToSpace_append (a b : Str) :
    plusToSpace (a ++ b) = plusToSpace a ++ plusToSpace b := by
  unfold plusToSpace
  exact List.map_append _ a b

theorem plusToSpace_quoteBytes (bs : List Nat) (hb : ∀ b ∈ bs, b < 256) :
    plusToSpace (quoteBytes bs) = quoteBytes bs := by
  induction bs with
  | nil => rfl
  | cons b rest ih =>
    have hb0 : b < 256 := hb b (by simp)
    have hrest : ∀ x ∈ rest, x < 256 := fun x hx => hb x (by simp [hx])
    show plusToSpace (quoteByte b ++ quoteBytes rest) = _
    rw [plusToSpace_append, ih hrest]
    unfold quoteByte plusToSpace
    simp only [List.map_cons, List.map_nil]
    rw [if_neg (by decide), if_neg (hexDigitU_ne_plus (b / 16) (by omega)),
      if_neg (hexDigitU_ne_plus (b % 16) (by omega))]
    rfl

theorem tokenize_quoteBytes (bs : List Nat) (hb : ∀ b ∈ bs, b < 256) (rest : Str) :
    tokenize (quoteBytes bs ++ rest) = bs.map QTok.byte ++ tokenize rest := by
  induction bs with
  | nil => rfl
  | cons b t ih =>
    have hb0 : b < 256 := hb b (by simp)
    have ht : ∀ x ∈ t, x < 256 := fun x hx => hb x (by simp [hx])
    show tokenize (quoteByte b ++ quoteBytes t ++ rest) = _
    rw [show quoteByte b ++ quoteBytes t ++ rest = quoteByte b ++ (quoteBytes t ++ rest) by
      simp]
    rw [tokenize_quoteByte b hb0, ih ht]
    rfl

theorem regroupAux_bytes (run : List Nat) (bs : List Nat) (ts : List QTok) :
    regroupAux run (bs.map QTok.byte ++ ts) = regroupAux (bs.reverse ++ run) ts := by
  induction bs generalizing run with
  | nil => rfl
  | cons b t ih =>
    show regroupAux (b :: run) (t.map QTok.byte ++ ts) = _
    rw [ih (b :: run)]
    simp

/-- The UTF-8 byte encoding of a character sequence. -/
def concatBytes : Str → List Nat
  | [] => []
  | c :: cs => utf8Bytes c.toNat ++ concatBytes cs

theorem concatBytes_append (a b : Str) :
    concatBytes (a ++ b) = concatBytes a ++ concatBytes b := by
  induction a with
  | nil => rfl
  | cons c t ih =>
    show utf8Bytes c.toNat ++ concatBytes (t ++ b) = _
    rw [ih]
    simp [concatBytes]

theorem utf8DecodeChars_concatBytes (pre : Str) :
    utf8DecodeChars (concatBytes pre) = pre := by
  induction pre with
  | nil => rfl
  | cons c t ih =>
    show utf8DecodeChars (utf8Bytes c.toNat ++ concatBytes t) = c :: t
    unfold utf8DecodeChars
    rw [utf8Decode_enc c.toNat (charValid c)]
    simp only [List.map_cons, Char.ofNat_toNat]
    unfold utf8DecodeChars at ih
    rw [ih]

theorem isQuoteSafe_ne_pct {c : Char} (h : isQuoteSafe c = true) : c ≠ '%' := by
  intro he
  subst he
  simp [isQuoteSafe, isAsciiAlphanum, isAsciiAlpha, isAsciiDigit] at h

theorem isQuoteSafe_ne_plus {c : Char} (h : isQuoteSafe c = true) : c ≠ '+' := by
  intro he
  subst he
  simp [isQuoteSafe, isAsciiAlphanum, isAsciiAlpha, isAsciiDigit] at h

theorem regroup_master (s : Str) : ∀ pre : Str,
    regroupAux (concatBytes pre).reverse (tokenize (plusToSpace (quotePlus s)))
      = pre ++ s := by
  induction s with
  | nil =>
    intro pre
    show regroupAux (concatBytes pre).reverse [] = pre ++ []
    show utf8DecodeChars (concatBytes pre).reverse.reverse = pre ++ []
    rw [List.reverse_reverse, utf8DecodeChars_concatBytes]
    simp
  | cons c s2 ih =>
    intro pre
    show regroupAux (concatBytes pre).reverse
      (tokenize (plusToSpace (quotePlusChar c ++ quotePlus s2))) = pre ++ c :: s2
    rw [plusToSpace_append]
    by_cases hsafe : isQuoteSafe c = true
    · rw [show plusToSpace (quotePlusChar c) = [c] by
        unfold quotePlusChar
        rw [if_pos hsafe]
        unfold plusToSpace
        simp only [List.map_cons, List.map_nil]
        rw [if_neg (isQuoteSafe_ne_plus hsafe)]]
      rw [show ([c] : Str) ++ plusToSpace (quotePlus s2)
        = c :: plusToSpace (quotePlus s2) by simp]
      rw [tokenize_raw c _ (isQuoteSafe_ne_pct hsafe)]
      show utf8DecodeChars (concatBytes pre).reverse.reverse
        ++ c :: regroupAux [] (tokenize (plusToSpace (quotePlus s2))) = pre ++ c :: s2
      rw [List.reverse_reverse, utf8DecodeChars_concatBytes]
      have := ih []
      simp only [concatBytes, List.reverse_nil] at this
      rw [this]
      simp
    · by_cases hsp : c = ' '
      · subst hsp
        rw [show plusToSpace (quotePlusChar ' ') = [' '] by
          unfold quotePlusChar
          rw [if_neg (by simp [hsafe]), if_pos rfl]
          rfl]
        rw [show ([' '] : Str) ++ plusToSpace (quotePlus s2)
          = ' ' :: plusToSpace (quotePlus s2) by simp]
        rw [tokenize_raw ' ' _ (by decide)]
        show utf8DecodeChars (concatBytes pre).reverse.reverse
          ++ ' ' :: regroupAux [] (tokenize (plusToSpace (quotePlus s2)))
          = pre ++ ' ' :: s2
        rw [List.reverse_reverse, utf8DecodeChars_concatBytes]
        have := ih []
        simp only [concatBytes, List.reverse_nil] at this
        rw [this]
        simp
      · have hlt : c.toNat < 0x110000 := by
          rcases charValid c with h | h
          · omega
          · omega
        have hbts : ∀ b ∈ utf8Bytes c.toNat, b < 256 := utf8Bytes_lt c.toNat hlt
        rw [show plusToSpace (quotePlusChar c) = quoteBytes (utf8Bytes c.toNat) by
          unfold quotePlusChar
          rw [if_neg (by simp [hsafe]), if_neg hsp]
          exact plusToSpace_quoteBytes _ hbts]
        rw [tokenize_quoteBytes _ hbts]
        rw [regroupAux_bytes]
        have hstep : (utf8Bytes c.toNat).reverse ++ (concatBytes pre).reverse
            = (concatBytes (pre ++ [c])).reverse := by
          rw [concatBytes_append]
          simp [concatBytes]
        rw [hstep, ih (pre ++ [c])]
        simp

theorem unquotePlus_quotePlus (s : Str) : unquotePlus (quotePlus s) = s := by
  unfold unquotePlus
  have := regroup_master s []
  simpa [concatBytes] using this

/-! Roundtrip of urlencode followed by parse_qsl. -/

theorem splitOnFirst_not_mem {c : Char} : ∀ {s : Str}, c ∉ s → splitOnFirst c s = none
  | [], _ => rfl
  | x :: xs, h => by
    have hx : x ≠ c := by
      intro he; exact h (by simp [he])
    have hxs : c ∉ xs := by
      intro he; exact h (by simp [he])
    simp only [splitOnFirst, if_neg hx, splitOnFirst_not_mem hxs]
    rfl

theorem splitOnFirst_first (c : Char) (a b : Str) (ha : c ∉ a) :
    splitOnFirst c (a ++ c :: b) = some (a, b) := by
  induction a with
  | nil => simp [splitOnFirst]
  | cons x xs ih =>
    have hx : x ≠ c := by
      intro he; exact ha (by simp [he])
    have hxs : c ∉ xs := by
      intro he; exact ha (by simp [he])
    show splitOnFirst c (x :: (xs ++ c :: b)) = _
    simp only [splitOnFirst, if_neg hx, ih hxs]
    rfl

theorem splitOnFirst_eq_some {c : Char} : ∀ {s a b : Str},
    splitOnFirst c s = some (a, b) → s = a ++ c :: b ∧ c ∉ a
  | [], a, b, h => by simp [splitOnFirst] at h
  | x :: xs, a, b, h => by
    by_cases hx : x = c
    · rw [splitOnFirst, if_pos hx, Option.some.injEq, Prod.mk.injEq] at h
      obtain ⟨ha, hb⟩ := h
      subst hx
      subst hb
      rw [← ha]
      simp
    · rw [splitOnFirst, if_neg hx] at h
      match hs : splitOnFirst c xs with
      | none => rw [hs] at h; simp at h
      | some (a2, b2) =>
        rw [hs, Option.map_some', Option.some.injEq, Prod.mk.injEq] at h
        obtain ⟨ha, hb⟩ := h
        obtain ⟨hxs2, hnot⟩ := splitOnFirst_eq_some hs
        subst hb
        constructor
        · rw [← ha]; simp [hxs2]
        · rw [← ha]
          intro hmem
          rcases List.mem_cons.mp hmem with he | he
          · exact hx he.symm
          · exact hnot he

theorem splitOnChar_not_mem (c : Char) : ∀ (s : Str), c ∉ s → splitOnChar c s = [s]
  | [], _ => rfl
  | x :: xs, h => by
    have hx : x ≠ c := by
      intro he; exact h (by simp [he])
    have hxs : c ∉ xs := by
      intro he; exact h (by simp [he])
    simp only [splitOnChar, if_neg hx, splitOnChar_not_mem c xs hxs]

theorem splitOnChar_append (c : Char) (a b : Str) (ha : c ∉ a) :
    splitOnChar c (a ++ c :: b) = a :: splitOnChar c b := by
  induction a with
  | nil => simp [splitOnChar]
  | cons x xs ih =>
    have hx : x ≠ c := by
      intro he; exact ha (by simp [he])
    have hxs : c ∉ xs := by
      intro he; exact ha (by simp [he])
    show splitOnChar c (x :: (xs ++ c :: b)) = _
    simp only [splitOnChar, if_neg hx, ih hxs]

theorem quoteBytes_chars (bs : List Nat) (hb : ∀ b ∈ bs, b < 256) :
    ∀ x ∈ quoteBytes bs, x = '%' ∨ isHexDigit x = true := by
  induction bs with
  | nil => intro x hx; cases hx
  | cons b t ih =>
    intro x hx
    have hb0 : b < 256 := hb b (by simp)
    have ht : ∀ y ∈ t, y < 256 := fun y hy => hb y (by simp [hy])
    rcases List.mem_append.mp hx with hx | hx
    · simp only [quoteByte, List.mem_cons, List.not_mem_nil, or_false] at hx
      rcases hx with hx | hx | hx
      · left; exact hx
      · right; rw [hx]; exact (hex_round (b / 16) (by omega)).1
      · right; rw [hx]; exact (hex_round (b % 16) (by omega)).1
    · exact ih ht x hx

theorem quotePlus_chars (s : Str) :
    ∀ x ∈ quotePlus s, isQuoteSafe x = true ∨ x = '+' ∨ x = '%' ∨ isHexDigit x = true := by
  induction s with
  | nil => intro x hx; cases hx
  | cons c t ih =>
    intro x hx
    rcases List.mem_append.mp hx with hx | hx
    · unfold quotePlusChar at hx
      by_cases hsafe : isQuoteSafe c = true
      · rw [if_pos hsafe] at hx
        simp only [List.mem_cons, List.not_mem_nil, or_false] at hx
        left; rw [hx]; exact hsafe
      · rw [if_neg hsafe] at hx
        by_cases hsp : c = ' '
        · rw [if_pos hsp] at hx
          simp only [List.mem_cons, List.not_mem_nil, or_false] at hx
          right; left; exact hx
        · rw [if_neg hsp] at hx
          have hlt : c.toNat < 0x110000 := by
            rcases charValid c with h | h <;> omega
          rcases quoteBytes_chars _ (utf8Bytes_lt c.toNat hlt) x hx with h | h
          · right; right; left; exact h
          · right; right; right; exact h
    · exact ih x hx

theorem quotePlus_not_special (s : Str) (c : Char) (hc : isQuoteSafe c = false)
    (hp : c ≠ '+') (hpc : c ≠ '%') (hh : isHexDigit c = false) : c ∉ quotePlus s := by
  intro hmem
  rcases quotePlus_chars s c hmem with h | h | h | h
  · rw [hc] at h; cases h
  · exact hp h
  · exact hpc h
  · rw [hh] at h; cases h

theorem amp_not_in_quotePlus (s : Str) : '&' ∉ quotePlus s :=
  quotePlus_not_special s '&' (by decide) (by decide) (by decide) (by decide)

theorem eq_not_in_quotePlus (s : Str) : '=' ∉ quotePlus s :=
  quotePlus_not_special s '=' (by decide) (by decide) (by decide) (by decide)

theorem qslField_piece (k v : Str) :
    qslField (quotePlus k ++ '=' :: quotePlus v) = some (k, v) := by
  unfold qslField
  rw [if_neg (by simp)]
  rw [splitOnFirst_first '=' _ _ (eq_not_in_quotePlus k)]
  show some (unquotePlus (quotePlus k), unquotePlus (quotePlus v)) = some (k, v)
  rw [unquotePlus_quotePlus, unquotePlus_quotePlus]

theorem amp_not_in_piece (k v : Str) : '&' ∉ quotePlus k ++ '=' :: quotePlus v := by
  intro h
  rcases List.mem_append.mp h with h | h
  · exact amp_not_in_quotePlus k h
  · rcases List.mem_cons.mp h with h | h
    · cases h
    · exact amp_not_in_quotePlus v h

theorem parse_qsl_urlencode : ∀ kept : List (Str × Str), kept ≠ [] →
    parse_qslM (urlencodeM kept) = kept
  | [], h => absurd rfl h
  | [(k, v)], _ => by
    show parse_qslM (quotePlus k ++ '=' :: quotePlus v) = [(k, v)]
    unfold parse_qslM
    rw [splitOnChar_not_mem '&' _ (amp_not_in_piece k v)]
    simp only [List.filterMap]
    rw [qslField_piece]
  | (k, v) :: (k2, v2) :: rest, _ => by
    show parse_qslM ((quotePlus k ++ '=' :: quotePlus v)
      ++ '&' :: urlencodeM ((k2, v2) :: rest)) = _
    unfold parse_qslM
    rw [splitOnChar_append '&' _ _ (amp_not_in_piece k v)]
    simp only [List.filterMap]
    rw [qslField_piece]
    have ih := parse_qsl_urlencode ((k2, v2) :: rest) (by simp)
    unfold parse_qslM at ih
    rw [ih]

/-! Facts about the URL splitters needed for the reparse of a reassembled
URL. -/

theorem toNat_ofNat_valid {n : Nat} (h : n.isValidChar) : (Char.ofNat n).toNat = n := by
  unfold Char.ofNat
  rw [dif_pos h]
  rfl

theorem pyLowerChar_idem (c : Char) : pyLowerChar (pyLowerChar c) = pyLowerChar c := by
  unfold pyLowerChar
  by_cases h : (65 ≤ c.toNat && c.toNat ≤ 90) = true
  · rw [if_pos h]
    simp only [Bool.and_eq_true, decide_eq_true_eq] at h
    have hv : (c.toNat + 32).isValidChar := Or.inl (by omega)
    have ht : (Char.ofNat (c.toNat + 32)).toNat = c.toNat + 32 := toNat_ofNat_valid hv
    rw [if_neg (by simp only [ht, Bool.and_eq_true, decide_eq_true_eq]; omega)]
  · rw [if_neg h, if_neg h]

theorem pyLower_idem (s : Str) : pyLower (pyLower s) = pyLower s := by
  unfold pyLower
  rw [List.map_map]
  apply List.map_congr_left
  intro c _
  exact pyLowerChar_idem c

theorem pyLowerChar_schemeChar {c : Char} (h : isSchemeChar c = true) :
    isSchemeChar (pyLowerChar c) = true := by
  unfold pyLowerChar
  by_cases hr : (65 ≤ c.toNat && c.toNat ≤ 90) = true
  · rw [if_pos hr]
    simp only [Bool.and_eq_true, decide_eq_true_eq] at hr
    have hv : (c.toNat + 32).isValidChar := Or.inl (by omega)
    have ht : (Char.ofNat (c.toNat + 32)).toNat = c.toNat + 32 := toNat_ofNat_valid hv
    simp only [isSchemeChar, isAsciiAlphanum, isAsciiAlpha, isAsciiDigit, ht,
      Bool.or_eq_true, Bool.and_eq_true, decide_eq_true_eq]
    left; left; left
    omega
  · rw [if_neg hr]
    exact h

theorem pyLowerChar_alpha {c : Char} (h : isAsciiAlpha c = true) :
    isAsciiAlpha (pyLowerChar c) = true := by
  unfold pyLowerChar
  by_cases hr : (65 ≤ c.toNat && c.toNat ≤ 90) = true
  · rw [if_pos hr]
    simp only [Bool.and_eq_true, decide_eq_true_eq] at hr
    have hv : (c.toNat + 32).isValidChar := Or.inl (by omega)
    have ht : (Char.ofNat (c.toNat + 32)).toNat = c.toNat + 32 := toNat_ofNat_valid hv
    simp only [isAsciiAlpha, ht, Bool.or_eq_true, Bool.and_eq_true, decide_eq_true_eq]
    left
    omega
  · rw [if_neg hr]
    exact h

theorem schemeChar_ne_colon {c : Char} (h : isSchemeChar c = true) : c ≠ ':' := by
  intro he
  subst he
  exact absurd h (by decide)

theorem splitOnFirst_isSome {c : Char} : ∀ {s : Str}, c ∈ s →
    (splitOnFirst c s).isSome = true
  | x :: xs, h => by
    by_cases hx : x = c
    · simp [splitOnFirst, hx]
    · have hxs : c ∈ xs := by
        rcases List.mem_cons.mp h with he | he
        · exact absurd he.symm hx
        · exact he
      have := splitOnFirst_isSome hxs
      simp only [splitOnFirst, if_neg hx]
      cases ho : splitOnFirst c xs with
      | none => rw [ho] at this; cases this
      | some p => rfl

theorem splitOnFirst_none_not_mem {c : Char} {s : Str}
    (h : splitOnFirst c s = none) : c ∉ s := by
  intro hmem
  have := splitOnFirst_isSome hmem
  rw [h] at this
  cases this

theorem fragSplit_spec (s : Str) :
    '#' ∉ (fragSplit s).1 ∧
      ∃ t, s = (fragSplit s).1 ++ t ∧ (t = [] ∨ t.head? = some '#') := by
  unfold fragSplit
  match hs : splitOnFirst '#' s with
  | none =>
    exact ⟨splitOnFirst_none_not_mem hs, [], by simp, Or.inl rfl⟩
  | some (a, b) =>
    obtain ⟨hdecomp, hnot⟩ := splitOnFirst_eq_some hs
    exact ⟨hnot, '#' :: b, hdecomp, Or.inr rfl⟩

theorem querySplit_spec (s : Str) :
    '?' ∉ (querySplit s).1 ∧
      ∃ t, s = (querySplit s).1 ++ t ∧ (t = [] ∨ t.head? = some '?') := by
  unfold querySplit
  match hs : splitOnFirst '?' s with
  | none =>
    exact ⟨splitOnFirst_none_not_mem hs, [], by simp, Or.inl rfl⟩
  | some (a, b) =>
    obtain ⟨hdecomp, hnot⟩ := splitOnFirst_eq_some hs
    exact ⟨hnot, '?' :: b, hdecomp, Or.inr rfl⟩

theorem netlocSplit_spec (s : Str) :
    (s.take 2 ≠ ['/', '/'] ∧ netlocSplit s = ([], s)) ∨
    ((∀ x ∈ (netlocSplit s).1, isNetlocStop x = false) ∧
      s = '/' :: '/' :: ((netlocSplit s).1 ++ (netlocSplit s).2) ∧
      ((netlocSplit s).2 = [] ∨
        ∃ y, (netlocSplit s).2.head? = some y ∧ isNetlocStop y = true)) := by
  by_cases h : s.take 2 = ['/', '/']
  · right
    match s, h with
    | c1 :: c2 :: s2, h =>
      simp only [List.take, List.cons.injEq] at h
      obtain ⟨h1, h2, _⟩ := h
      subst h1
      subst h2
      unfold netlocSplit
      rw [if_pos (by simp)]
      simp only [List.drop_succ_cons, List.drop_zero]
      refine ⟨?_, ?_, ?_⟩
      · intro x hx
        have := List.mem_takeWhile_imp hx
        simpa using this
      · simp [List.takeWhile_append_dropWhile]
      · have hh := List.head?_dropWhile_not (fun c => !isNetlocStop c) s2
        match hd : (s2.dropWhile (fun c => !isNetlocStop c)).head? with
        | none =>
          left
          simpa using hd
        | some y =>
          right
          refine ⟨y, rfl, ?_⟩
          rw [hd] at hh
          simpa using hh
  · left
    refine ⟨h, ?_⟩
    unfold netlocSplit
    rw [if_neg h]

def schemeBad (a : Str) : Prop :=
  a = [] ∨ ∃ c cs, a = c :: cs ∧ (isAsciiAlpha c && (c :: cs).all isSchemeChar) = false

theorem schemeSplit_spec (u : Str) :
    (schemeSplit u = ([], u) ∧
      ∀ a b, splitOnFirst ':' u = some (a, b) → schemeBad a) ∨
    (∃ pre rest2, splitOnFirst ':' u = some (pre, rest2) ∧
      u = pre ++ ':' :: rest2 ∧ ':' ∉ pre ∧
      (∃ c cs, pre = c :: cs ∧ (isAsciiAlpha c && (c :: cs).all isSchemeChar) = true) ∧
      schemeSplit u = (pyLower pre, rest2)) := by
  match hs : splitOnFirst ':' u with
  | none =>
    left
    refine ⟨?_, fun a b hab => by cases hab⟩
    unfold schemeSplit
    rw [hs]
  | some ([], post) =>
    left
    refine ⟨?_, ?_⟩
    · unfold schemeSplit
      rw [hs]
    · intro a b hab
      simp only [Option.some.injEq, Prod.mk.injEq] at hab
      exact Or.inl hab.1.symm
  | some (c :: cs, post) =>
    have heq : schemeSplit u
        = if (isAsciiAlpha c && (c :: cs).all isSchemeChar) = true
          then (pyLower (c :: cs), post) else ([], u) := by
      unfold schemeSplit
      rw [hs]
    by_cases hv : (isAsciiAlpha c && (c :: cs).all isSchemeChar) = true
    · right
      obtain ⟨hdecomp, hnot⟩ := splitOnFirst_eq_some hs
      rw [if_pos hv] at heq
      exact ⟨c :: cs, post, rfl, hdecomp, hnot, ⟨c, cs, rfl, hv⟩, heq⟩
    · left
      rw [if_neg hv] at heq
      refine ⟨heq, ?_⟩
      intro a b hab
      simp only [Option.some.injEq, Prod.mk.injEq] at hab
      right
      exact ⟨c, cs, hab.1.symm, by simpa using hv⟩

theorem takeWhile_exact (p : Char → Bool) : ∀ (a b : Str),
    (∀ x ∈ a, p x = true) → (b = [] ∨ ∃ y, b.head? = some y ∧ p y = false) →
    (a ++ b).takeWhile p = a ∧ (a ++ b).dropWhile p = b
  | [], b, _, hb => by
    rcases hb with hb | ⟨y, hy, hpy⟩
    · subst hb
      simp
    · match b, hy with
      | y2 :: ys, hy =>
        have he : y2 = y := by simpa using hy
        subst he
        simp only [List.nil_append, List.takeWhile_cons, List.dropWhile_cons, hpy]
        simp
  | x :: xs, b, ha, hb => by
    have hx : p x = true := ha x (by simp)
    have hxs : ∀ z ∈ xs, p z = true := fun z hz => ha z (by simp [hz])
    obtain ⟨h1, h2⟩ := takeWhile_exact p xs b hxs hb
    constructor
    · show ((x :: (xs ++ b)).takeWhile p) = x :: xs
      rw [List.takeWhile_cons, hx]
      simp only [if_true, h1]
    · show ((x :: (xs ++ b)).dropWhile p) = b
      rw [List.dropWhile_cons, hx]
      simp only [if_true, h2]

theorem afterLastSlash_append (x y : Str) (hx : x.getLast? = some '/')
    (hy : '/' ∉ y) : afterLastSlash (x ++ y) = y := by
  unfold afterLastSlash
  rw [List.reverse_append]
  have ha : ∀ z ∈ y.reverse, (fun c => decide (c ≠ '/')) z = true := by
    intro z hz
    simp only [decide_eq_true_eq]
    intro he
    subst he
    exact hy (List.mem_reverse.mp hz)
  have hb : x.reverse = [] ∨ ∃ w, x.reverse.head? = some w
      ∧ (fun c => decide (c ≠ '/')) w = false := by
    right
    exact ⟨'/', by rw [List.head?_reverse]; exact hx, by simp⟩
  obtain ⟨h1, _⟩ := takeWhile_exact _ y.reverse x.reverse ha hb
  rw [h1, List.reverse_reverse]

theorem afterLastSlash_spec (p : Str) :
    p = p.take (p.length - (afterLastSlash p).length) ++ afterLastSlash p ∧
    '/' ∉ afterLastSlash p ∧
    ('/' ∈ p → (p.take (p.length - (afterLastSlash p).length)).getLast? = some '/') := by
  have hsplit : p.reverse.takeWhile (fun c => decide (c ≠ '/'))
      ++ p.reverse.dropWhile (fun c => decide (c ≠ '/')) = p.reverse :=
    List.takeWhile_append_dropWhile _ _
  have hp : p = (p.reverse.dropWhile (fun c => decide (c ≠ '/'))).reverse
      ++ afterLastSlash p := by
    unfold afterLastSlash
    rw [← List.reverse_append, hsplit, List.reverse_reverse]
  have hlen : (p.reverse.dropWhile (fun c => decide (c ≠ '/'))).reverse.length
      = p.length - (afterLastSlash p).length := by
    unfold afterLastSlash
    have := congrArg List.length hsplit
    simp only [List.length_append, List.length_reverse] at this ⊢
    omega
  have htake : p.take (p.length - (afterLastSlash p).length)
      = (p.reverse.dropWhile (fun c => decide (c ≠ '/'))).reverse := by
    have h2 := List.take_left
      (p.reverse.dropWhile (fun c => decide (c ≠ '/'))).reverse (afterLastSlash p)
    rw [← hp] at h2
    rw [hlen] at h2
    exact h2
  refine ⟨?_, ?_, ?_⟩
  · rw [htake]
    exact hp
  · intro hmem
    unfold afterLastSlash at hmem
    have := List.mem_takeWhile_imp (List.mem_reverse.mp hmem)
    simp at this
  · intro hmem
    rw [htake, List.getLast?_reverse]
    have hne : p.reverse.dropWhile (fun c => decide (c ≠ '/')) ≠ [] := by
      intro he
      rw [he] at hsplit
      simp only [List.append_nil] at hsplit
      have : '/' ∈ p.reverse.takeWhile (fun c => decide (c ≠ '/')) := by
        rw [hsplit]
        exact List.mem_reverse.mpr hmem
      have := List.mem_takeWhile_imp this
      simp at this
    match hd : p.reverse.dropWhile (fun c => decide (c ≠ '/')) with
    | [] => exact absurd hd hne
    | y :: ys =>
      have hh := List.head?_dropWhile_not (fun c => decide (c ≠ '/')) p.reverse
      rw [hd] at hh
      simp only [List.head?_cons] at hh ⊢
      simp only [decide_eq_false_iff_not, Decidable.not_not] at hh
      rw [hh]

/-- The reassembled path and params component of urlunparse. -/
def paramsJoin (pr : Str × Str) : Str :=
  if pr.2 = [] then pr.1 else pr.1 ++ ';' :: pr.2

theorem paramsJoin_split (p : Str) :
    paramsSplit (paramsJoin (paramsSplit p)) = paramsSplit p ∧
    (∃ ext, p = paramsJoin (paramsSplit p) ++ ext) ∧
    (paramsJoin (paramsSplit p) = [] ∨ (paramsJoin (paramsSplit p)).head? = p.head?) := by
  by_cases hs : '/' ∈ p
  · obtain ⟨hdecomp, hnfs, hlast⟩ := afterLastSlash_spec p
    have hlast' := hlast hs
    match hsp : splitOnFirst ';' (afterLastSlash p) with
    | some (a, b) =>
      have heq : paramsSplit p
          = (p.take (p.length - (afterLastSlash p).length) ++ a, b) := by
        unfold paramsSplit
        rw [if_pos hs, hsp]
      obtain ⟨hseg, hna⟩ := splitOnFirst_eq_some hsp
      by_cases hb : b = []
      · subst hb
        have hjoin : paramsJoin (paramsSplit p)
            = p.take (p.length - (afterLastSlash p).length) ++ a := by
          rw [heq]; rfl
        have hna2 : '/' ∉ a := fun hmem => hnfs (hseg ▸ List.mem_append_left _ hmem)
        have hsl : '/' ∈ p.take (p.length - (afterLastSlash p).length) ++ a :=
          List.mem_append_left _ (List.mem_of_getLast?_eq_some hlast')
        have hAfter : afterLastSlash (p.take (p.length - (afterLastSlash p).length) ++ a)
            = a := afterLastSlash_append _ a hlast' hna2
        have hre : paramsSplit (p.take (p.length - (afterLastSlash p).length) ++ a)
            = (p.take (p.length - (afterLastSlash p).length) ++ a, []) := by
          unfold paramsSplit
          rw [if_pos hsl, hAfter, splitOnFirst_not_mem hna]
        refine ⟨?_, ?_, ?_⟩
        · rw [hjoin, hre, heq]
        · refine ⟨[';'], ?_⟩
          rw [hjoin]
          rw [show (p.take (p.length - (afterLastSlash p).length) ++ a) ++ [';']
            = p.take (p.length - (afterLastSlash p).length) ++ (a ++ ';' :: []) from by
            simp]
          rw [← hseg]
          exact hdecomp
        · right
          rw [hjoin]
          have ht : p.take (p.length - (afterLastSlash p).length) ≠ [] := by
            intro he
            rw [he] at hlast'
            simp at hlast'
          have h1 : (p.take (p.length - (afterLastSlash p).length) ++ a).head?
              = (p.take (p.length - (afterLastSlash p).length)).head? := by
            cases htk : p.take (p.length - (afterLastSlash p).length) with
            | nil => exact absurd htk ht
            | cons t ts => simp
          have h2 : p.head? = (p.take (p.length - (afterLastSlash p).length)).head? := by
            conv =>
              lhs
              rw [hdecomp]
            cases htk : p.take (p.length - (afterLastSlash p).length) with
            | nil => exact absurd htk ht
            | cons t ts => simp
          rw [h1, h2]
      · have hjoin : paramsJoin (paramsSplit p)
            = (p.take (p.length - (afterLastSlash p).length) ++ a) ++ ';' :: b := by
          rw [heq]
          unfold paramsJoin
          rw [if_neg hb]
        have hup : (p.take (p.length - (afterLastSlash p).length) ++ a) ++ ';' :: b
            = p := by
          rw [show (p.take (p.length - (afterLastSlash p).length) ++ a) ++ ';' :: b
            = p.take (p.length - (afterLastSlash p).length) ++ (a ++ ';' :: b) from by
            simp]
          rw [← hseg]
          exact hdecomp.symm
        rw [hjoin, hup]
        exact ⟨rfl, ⟨[], by simp⟩, Or.inr rfl⟩
    | none =>
      have heq : paramsSplit p = (p, []) := by
        unfold paramsSplit
        rw [if_pos hs, hsp]
      have hjoin : paramsJoin (paramsSplit p) = p := by rw [heq]; rfl
      rw [hjoin]
      exact ⟨rfl, ⟨[], by simp⟩, Or.inr rfl⟩
  · match hsp : splitOnFirst ';' p with
    | some (a, b) =>
      have heq : paramsSplit p = (a, b) := by
        unfold paramsSplit
        rw [if_neg hs, hsp]
      obtain ⟨hdec, hna⟩ := splitOnFirst_eq_some hsp
      by_cases hb : b = []
      · subst hb
        have hjoin : paramsJoin (paramsSplit p) = a := by rw [heq]; rfl
        have hnla : '/' ∉ a := fun h => hs (hdec ▸ List.mem_append_left _ h)
        have hre : paramsSplit a = (a, []) := by
          unfold paramsSplit
          rw [if_neg hnla, splitOnFirst_not_mem hna]
        refine ⟨by rw [hjoin, hre, heq], ⟨[';'], by rw [hjoin]; exact hdec⟩, ?_⟩
        cases ha : a with
        | nil => left; rw [hjoin, ha]
        | cons c cs =>
          right
          rw [hjoin, hdec, ha]
          simp
      · have hjoin : paramsJoin (paramsSplit p) = a ++ ';' :: b := by
          rw [heq]
          unfold paramsJoin
          rw [if_neg hb]
        rw [hjoin, ← hdec]
        exact ⟨rfl, ⟨[], by simp⟩, Or.inr rfl⟩
    | none =>
      have heq : paramsSplit p = (p, []) := by
        unfold paramsSplit
        rw [if_neg hs, hsp]
      have hjoin : paramsJoin (paramsSplit p) = p := by rw [heq]; rfl
      rw [hjoin]
      exact ⟨rfl, ⟨[], by simp⟩, Or.inr rfl⟩

theorem schemeSplit_forward (c : Char) (cs rest : Str)
    (hv : (isAsciiAlpha c && (c :: cs).all isSchemeChar) = true)
    (hlow : pyLower (c :: cs) = c :: cs) :
    schemeSplit ((c :: cs) ++ ':' :: rest) = (c :: cs, rest) := by
  have hnc : ':' ∉ c :: cs := by
    intro hmem
    have hall := ((Bool.and_eq_true _ _).mp hv).2
    have := List.all_eq_true.mp hall ':' hmem
    exact schemeChar_ne_colon this rfl
  have heq : schemeSplit ((c :: cs) ++ ':' :: rest)
      = if (isAsciiAlpha c && (c :: cs).all isSchemeChar) = true
        then (pyLower (c :: cs), rest) else ([], (c :: cs) ++ ':' :: rest) := by
    unfold schemeSplit
    rw [splitOnFirst_first ':' _ _ hnc]
  rw [if_pos hv, hlow] at heq
  exact heq

theorem schemeBad_of_mem {a : Str} (x : Char) (hx : x ∈ a)
    (hbad : isSchemeChar x = false) : schemeBad a := by
  match a with
  | [] => exact Or.inl rfl
  | c :: cs =>
    right
    refine ⟨c, cs, rfl, ?_⟩
    cases h2 : (c :: cs).all isSchemeChar with
    | true =>
      have := List.all_eq_true.mp h2 x hx
      rw [hbad] at this
      cases this
    | false => simp [h2]

theorem schemeBad_of_head {a : Str} (x : Char) (hx : a.head? = some x)
    (hbad : isAsciiAlpha x = false) : schemeBad a := by
  match a, hx with
  | c :: cs, hx =>
    have : c = x := by simpa using hx
    subst this
    right
    exact ⟨c, cs, rfl, by simp [hbad]⟩

theorem schemeSplit_of_bad (w : Str)
    (h : ∀ a b, splitOnFirst ':' w = some (a, b) → schemeBad a) :
    schemeSplit w = ([], w) := by
  match hs : splitOnFirst ':' w with
  | none =>
    unfold schemeSplit
    rw [hs]
  | some (a, b) =>
    rcases h a b hs with ha | ⟨c, cs, hacs, hfalse⟩
    · subst ha
      unfold schemeSplit
      rw [hs]
    · subst hacs
      have heq : schemeSplit w
          = if (isAsciiAlpha c && (c :: cs).all isSchemeChar) = true
            then (pyLower (c :: cs), b) else ([], w) := by
        unfold schemeSplit
        rw [hs]
      rw [if_neg (by intro hcon; rw [hcon] at hfalse; cases hfalse)] at heq
      exact heq

theorem schemeSplit_no_colon (w : Str) (h : ':' ∉ w) : schemeSplit w = ([], w) := by
  unfold schemeSplit
  rw [splitOnFirst_not_mem h]

theorem first_colon_after_prefix : ∀ (p t a b : Str), p ++ t = a ++ ':' :: b →
    ':' ∉ p → ':' ∉ a →
    (∃ b2, t = ':' :: b2 ∧ a = p) ∨ (∃ y t2, t = y :: t2 ∧ y ∈ a)
  | [], t, a, b, h, _, _ => by
    cases a with
    | nil => exact Or.inl ⟨b, by simpa using h, rfl⟩
    | cons y a2 =>
      right
      simp only [List.nil_append, List.cons_append] at h
      exact ⟨y, a2 ++ ':' :: b, by rw [h], by simp⟩
  | x :: p2, t, a, b, h, hnp, hna => by
    cases a with
    | nil =>
      simp only [List.nil_append, List.cons_append, List.cons.injEq] at h
      exact absurd (by simp [h.1] : ':' ∈ x :: p2) hnp
    | cons y a2 =>
      simp only [List.cons_append, List.cons.injEq] at h
      obtain ⟨hxy, h2⟩ := h
      have hnp2 : ':' ∉ p2 := fun hm => hnp (by simp [hm])
      have hna2 : ':' ∉ a2 := fun hm => hna (by simp [hm])
      rcases first_colon_after_prefix p2 t a2 b h2 hnp2 hna2 with
        ⟨b2, ht, hap⟩ | ⟨z, t2, ht, hz⟩
      · exact Or.inl ⟨b2, ht, by rw [hap, ← hxy]⟩
      · exact Or.inr ⟨z, t2, ht, by simp [hz]⟩

theorem netlocSplit_false (s : Str) (h : s.take 2 ≠ ['/', '/']) :
    netlocSplit s = ([], s) := by
  unfold netlocSplit
  rw [if_neg h]

theorem netlocSplit_forward (nl rest : Str)
    (hnl : ∀ x ∈ nl, isNetlocStop x = false)
    (hrest : rest = [] ∨ ∃ y, rest.head? = some y ∧ isNetlocStop y = true) :
    netlocSplit ('/' :: '/' :: (nl ++ rest)) = (nl, rest) := by
  unfold netlocSplit
  rw [if_pos (by simp)]
  simp only [List.drop_succ_cons, List.drop_zero]
  obtain ⟨h1, h2⟩ := takeWhile_exact (fun c => !isNetlocStop c) nl rest
    (fun x hx => by simp [hnl x hx])
    (by rcases hrest with h | ⟨y, hy, hsy⟩
        · exact Or.inl h
        · exact Or.inr ⟨y, hy, by simp [hsy]⟩)
  rw [h1, h2]

theorem fragSplit_forward_none (s : Str) (h : '#' ∉ s) : fragSplit s = (s, []) := by
  unfold fragSplit
  rw [splitOnFirst_not_mem h]

theorem fragSplit_forward_some (a f : Str) (h : '#' ∉ a) :
    fragSplit (a ++ '#' :: f) = (a, f) := by
  unfold fragSplit
  rw [splitOnFirst_first '#' _ _ h]

theorem querySplit_forward_none (s : Str) (h : '?' ∉ s) : querySplit s = (s, []) := by
  unfold querySplit
  rw [splitOnFirst_not_mem h]

theorem querySplit_forward_some (a q : Str) (h : '?' ∉ a) :
    querySplit (a ++ '?' :: q) = (a, q) := by
  unfold querySplit
  rw [splitOnFirst_first '?' _ _ h]

theorem take_two_ne_slashes (url0 t23 : Str)
    (h0 : url0.take 2 ≠ ['/', '/'])
    (ht : t23 = [] ∨ t23.head? = some '?' ∨ t23.head? = some '#') :
    (url0 ++ t23).take 2 ≠ ['/', '/'] := by
  match url0 with
  | [] =>
    simp only [List.nil_append]
    rcases ht with ht | ht | ht
    · subst ht; simp
    · match t23, ht with
      | t :: ts, ht =>
        have : t = '?' := by simpa using ht
        subst this
        intro hcon
        simp only [List.take_succ_cons, List.cons.injEq] at hcon
        exact absurd hcon.1 (by decide)
    · match t23, ht with
      | t :: ts, ht =>
        have : t = '#' := by simpa using ht
        subst this
        intro hcon
        simp only [List.take_succ_cons, List.cons.injEq] at hcon
        exact absurd hcon.1 (by decide)
  | [x] =>
    rcases ht with ht | ht | ht
    · subst ht
      simpa using h0
    · match t23, ht with
      | t :: ts, ht =>
        have : t = '?' := by simpa using ht
        subst this
        intro hcon
        simp only [List.cons_append, List.nil_append, List.take_succ_cons,
          List.cons.injEq] at hcon
        exact absurd hcon.2.1 (by decide)
    · match t23, ht with
      | t :: ts, ht =>
        have : t = '#' := by simpa using ht
        subst this
        intro hcon
        simp only [List.cons_append, List.nil_append, List.take_succ_cons,
          List.cons.injEq] at hcon
        exact absurd hcon.2.1 (by decide)
  | x :: y :: rest =>
    intro hcon
    simp only [List.cons_append, List.take_succ_cons, List.cons.injEq] at hcon
    exact h0 (by simp [hcon.1, hcon.2.1])

theorem head_slash_of_take_two (url0 : Str) (h : url0.take 2 = ['/', '/']) :
    url0.head? = some '/' := by
  match url0 with
  | [] => simp at h
  | x :: rest =>
    simp only [List.take_succ_cons, List.cons.injEq] at h
    simp [h.1]


theorem unparse_reparse (sch nl path par q2 frag : Str)
    (hsch : sch = [] ∨ ∃ c cs, sch = c :: cs
      ∧ (isAsciiAlpha c && (c :: cs).all isSchemeChar) = true ∧ pyLower sch = sch)
    (hnl : ∀ x ∈ nl, isNetlocStop x = false)
    (hps : paramsSplit (paramsJoin (path, par)) = (path, par))
    (hnh : '#' ∉ paramsJoin (path, par))
    (hnq : '?' ∉ paramsJoin (path, par))
    (hslash : nl ≠ [] → paramsJoin (path, par) = []
      ∨ (paramsJoin (path, par)).head? = some '/')
    (hbadp : sch = [] → nl = [] → (paramsJoin (path, par)).take 2 ≠ ['/', '/'] →
      ∀ a b, splitOnFirst ':' (paramsJoin (path, par)) = some (a, b) → schemeBad a)
    (hq2 : '#' ∉ q2) :
    urlparseM (urlunparseM (UrlParts.mk sch nl path par q2 frag))
      = UrlParts.mk sch nl path par q2 frag := by
  set url0 := paramsJoin (path, par) with hu0
  set qpart := (if q2 = [] then ([] : Str) else '?' :: q2) with hqp
  set fpart := (if frag = [] then ([] : Str) else '#' :: frag) with hfp
  have ht23head : qpart ++ fpart = [] ∨ (qpart ++ fpart).head? = some '?'
      ∨ (qpart ++ fpart).head? = some '#' := by
    rw [hqp, hfp]
    by_cases hq : q2 = []
    · by_cases hf : frag = []
      · left; simp [hq, hf]
      · right; right; simp [hq, hf]
    · right; left; simp [hq]
  have hhead0 : (nl ≠ [] ∨ url0.take 2 = ['/', '/']) →
      url0 = [] ∨ url0.head? = some '/' := by
    intro hbr
    rcases hbr with hbr | hbr
    · exact hslash hbr
    · exact Or.inr (head_slash_of_take_two url0 hbr)
  have hnh_uq : '#' ∉ url0 ++ qpart := by
    intro hm
    rcases List.mem_append.mp hm with hm | hm
    · exact hnh hm
    · rw [hqp] at hm
      by_cases hq : q2 = []
      · rw [if_pos hq] at hm
        exact List.not_mem_nil _ hm
      · rw [if_neg hq] at hm
        rcases List.mem_cons.mp hm with h | h
        · exact absurd h (by decide)
        · exact hq2 h
  have hF : fragSplit (url0 ++ (qpart ++ fpart)) = (url0 ++ qpart, frag) := by
    by_cases hf : frag = []
    · have hfe : fpart = [] := by rw [hfp, if_pos hf]
      rw [hfe, List.append_nil, hf]
      exact fragSplit_forward_none _ hnh_uq
    · have hfe : fpart = '#' :: frag := by rw [hfp, if_neg hf]
      rw [hfe, show url0 ++ (qpart ++ '#' :: frag) = (url0 ++ qpart) ++ '#' :: frag
        from by simp]
      exact fragSplit_forward_some _ _ hnh_uq
  have hQ : querySplit (url0 ++ qpart) = (url0, q2) := by
    by_cases hq : q2 = []
    · have hqe : qpart = [] := by rw [hqp, if_pos hq]
      rw [hqe, List.append_nil, hq]
      exact querySplit_forward_none _ hnq
    · have hqe : qpart = '?' :: q2 := by rw [hqp, if_neg hq]
      rw [hqe]
      exact querySplit_forward_some _ _ hnq
  have hjoin : (if par = [] then path else path ++ ';' :: par) = url0 := by
    rw [hu0]
    rfl
  have hw : urlunparseM (UrlParts.mk sch nl path par q2 frag)
      = (if sch = [] then ([] : Str) else sch ++ [':'])
        ++ ((if nl ≠ [] ∨ url0.take 2 = ['/', '/']
            then '/' :: '/' :: (nl ++ url0) else url0)
          ++ (qpart ++ fpart)) := by
    by_cases hbr : nl ≠ [] ∨ url0.take 2 = ['/', '/']
    · have hprep : (if url0 ≠ [] ∧ url0.head? ≠ some '/' then '/' :: url0 else url0)
          = url0 := by
        rcases hhead0 hbr with h0 | h0
        · rw [if_neg (by simp [h0])]
        · rw [if_neg (by simp [h0])]
      by_cases hq : q2 = [] <;> by_cases hf : frag = [] <;> by_cases hs : sch = [] <;>
        simp [urlunparseM, hjoin, hbr, hprep, hq, hf, hs, hqp, hfp, List.append_assoc]
    · by_cases hq : q2 = [] <;> by_cases hf : frag = [] <;> by_cases hs : sch = [] <;>
        simp [urlunparseM, hjoin, hbr, hq, hf, hs, hqp, hfp, List.append_assoc]
  rw [hw]
  by_cases hbr : nl ≠ [] ∨ url0.take 2 = ['/', '/']
  · rw [if_pos hbr]
    have hrest : url0 ++ (qpart ++ fpart) = [] ∨
        ∃ y, (url0 ++ (qpart ++ fpart)).head? = some y ∧ isNetlocStop y = true := by
      rcases hhead0 hbr with h0 | h0
      · rw [h0, List.nil_append]
        rcases ht23head with h | h | h
        · exact Or.inl h
        · exact Or.inr ⟨'?', h, by decide⟩
        · exact Or.inr ⟨'#', h, by decide⟩
      · right
        refine ⟨'/', ?_, by decide⟩
        match url0, h0 with
        | u :: us, h0 =>
          have hu : u = '/' := by simpa using h0
          subst hu
          rfl
    have hN : netlocSplit ('/' :: '/' :: (nl ++ url0) ++ (qpart ++ fpart))
        = (nl, url0 ++ (qpart ++ fpart)) := by
      rw [show '/' :: '/' :: (nl ++ url0) ++ (qpart ++ fpart)
          = '/' :: '/' :: (nl ++ (url0 ++ (qpart ++ fpart))) from by simp]
      exact netlocSplit_forward nl _ hnl hrest
    by_cases hs : sch = []
    · rw [if_pos hs, List.nil_append]
      have hS : schemeSplit ('/' :: '/' :: (nl ++ url0) ++ (qpart ++ fpart))
          = ([], '/' :: '/' :: (nl ++ url0) ++ (qpart ++ fpart)) := by
        apply schemeSplit_of_bad
        intro a b hsplit
        obtain ⟨hdecomp, hnota⟩ := splitOnFirst_eq_some hsplit
        match a, hdecomp with
        | [], hdecomp =>
          exact Or.inl rfl
        | y :: a2, hdecomp =>
          simp only [List.cons_append, List.cons.injEq] at hdecomp
          exact schemeBad_of_head y rfl (by rw [← hdecomp.1]; decide)
      simp only [urlparseM, hS, hN, hF, hQ, hps, hs]
    · rw [if_neg hs]
      obtain ⟨c, cs, hcs, hv, hlow⟩ := hsch.resolve_left hs
      subst hcs
      rw [show ((c :: cs) ++ [':']) ++ ('/' :: '/' :: (nl ++ url0) ++ (qpart ++ fpart))
          = (c :: cs) ++ ':' :: ('/' :: '/' :: (nl ++ url0) ++ (qpart ++ fpart))
          from by simp]
      have hS := schemeSplit_forward c cs
        ('/' :: '/' :: (nl ++ url0) ++ (qpart ++ fpart)) hv hlow
      simp only [urlparseM, hS, hN, hF, hQ, hps]
  · rw [if_neg hbr]
    push_neg at hbr
    obtain ⟨hnl0, htk⟩ := hbr
    have hN : netlocSplit (url0 ++ (qpart ++ fpart))
        = ([], url0 ++ (qpart ++ fpart)) :=
      netlocSplit_false _ (take_two_ne_slashes url0 _ htk ht23head)
    by_cases hs : sch = []
    · rw [if_pos hs, List.nil_append]
      have hS : schemeSplit (url0 ++ (qpart ++ fpart))
          = ([], url0 ++ (qpart ++ fpart)) := by
        apply schemeSplit_of_bad
        intro a b hsplit
        obtain ⟨hdecomp, hnota⟩ := splitOnFirst_eq_some hsplit
        by_cases hcolon : ':' ∈ url0
        · have hsome := splitOnFirst_isSome hcolon
          match hs0 : splitOnFirst ':' url0 with
          | none =>
            rw [hs0] at hsome
            cases hsome
          | some (a0, b0) =>
            obtain ⟨hd0, hn0⟩ := splitOnFirst_eq_some hs0
            have hw2 : url0 ++ (qpart ++ fpart)
                = a0 ++ ':' :: (b0 ++ (qpart ++ fpart)) := by
              rw [hd0]
              simp [List.append_assoc]
            have hfirst := splitOnFirst_first ':' a0 (b0 ++ (qpart ++ fpart)) hn0
            rw [← hw2, hsplit] at hfirst
            simp only [Option.some.injEq, Prod.mk.injEq] at hfirst
            obtain ⟨ha, _⟩ := hfirst
            rw [ha]
            exact hbadp hs hnl0 htk a0 b0 hs0
        · rcases first_colon_after_prefix url0 (qpart ++ fpart) a b hdecomp hcolon hnota
            with ⟨b2, ht, hap⟩ | ⟨y, t2, ht, hy⟩
          · exfalso
            rcases ht23head with h | h | h
            · rw [ht] at h
              exact List.cons_ne_nil _ _ h
            · rw [ht] at h
              have hcq : (':' : Char) = '?' := by simpa using h
              exact absurd hcq (by decide)
            · rw [ht] at h
              have hcq : (':' : Char) = '#' := by simpa using h
              exact absurd hcq (by decide)
          · rcases ht23head with h | h | h
            · rw [ht] at h
              exact absurd h (List.cons_ne_nil _ _)
            · rw [ht] at h
              have hy2 : y = '?' := by simpa using h
              exact schemeBad_of_mem y hy (by rw [hy2]; decide)
            · rw [ht] at h
              have hy2 : y = '#' := by simpa using h
              exact schemeBad_of_mem y hy (by rw [hy2]; decide)
      simp only [urlparseM, hS, hN, hF, hQ, hps, hs, hnl0]
    · rw [if_neg hs]
      obtain ⟨c, cs, hcs, hv, hlow⟩ := hsch.resolve_left hs
      subst hcs
      rw [show ((c :: cs) ++ [':']) ++ (url0 ++ (qpart ++ fpart))
          = (c :: cs) ++ ':' :: (url0 ++ (qpart ++ fpart)) from by simp]
      have hS := schemeSplit_forward c cs (url0 ++ (qpart ++ fpart)) hv hlow
      simp only [urlparseM, hS, hN, hF, hQ, hps, hnl0]

theorem head_append_of_ne_nil (a b : Str) (ha : a ≠ []) :
    (a ++ b).head? = a.head? := by
  match a with
  | [] => exact absurd rfl ha
  | x :: xs => rfl

theorem mem_of_head_eq (y : Char) : ∀ (l : Str), l.head? = some y → y ∈ l
  | [], h => by simp at h
  | z :: zs, h => by
    have hz : z = y := by simpa using h
    rw [← hz]
    exact List.mem_cons_self z zs

theorem scheme_part_ok (u : Str) :
    (schemeSplit u).1 = [] ∨ ∃ c cs, (schemeSplit u).1 = c :: cs
      ∧ (isAsciiAlpha c && (c :: cs).all isSchemeChar) = true
      ∧ pyLower (schemeSplit u).1 = (schemeSplit u).1 := by
  rcases schemeSplit_spec u with ⟨heq, _⟩ |
    ⟨pre, rest2, _, _, _, ⟨c, cs, hpre, hv⟩, heq⟩
  · left
    rw [heq]
  · right
    rw [heq, hpre]
    refine ⟨pyLowerChar c, List.map pyLowerChar cs, rfl, ?_, ?_⟩
    · rw [Bool.and_eq_true] at hv ⊢
      rw [List.all_eq_true] at hv ⊢
      refine ⟨pyLowerChar_alpha hv.1, ?_⟩
      intro x hx
      have hx2 : x ∈ List.map pyLowerChar (c :: cs) := hx
      obtain ⟨y, hy, hxy⟩ := List.mem_map.mp hx2
      rw [← hxy]
      exact pyLowerChar_schemeChar (hv.2 y hy)
    · show pyLower (pyLower (c :: cs)) = pyLower (c :: cs)
      exact pyLower_idem _

theorem netloc_part_ok (s : Str) : ∀ x ∈ (netlocSplit s).1, isNetlocStop x = false := by
  rcases netlocSplit_spec s with ⟨_, heq⟩ | ⟨h, _, _⟩
  · rw [heq]
    intro x hx
    cases hx
  · exact h

theorem url0_head_slash (u : Str)
    (hne : paramsJoin (paramsSplit
      (querySplit (fragSplit (netlocSplit (schemeSplit u).2).2).1).1) ≠ [])
    (hrestN : (netlocSplit (schemeSplit u).2).2 = [] ∨
      ∃ y, (netlocSplit (schemeSplit u).2).2.head? = some y ∧ isNetlocStop y = true) :
    (paramsJoin (paramsSplit
      (querySplit (fragSplit (netlocSplit (schemeSplit u).2).2).1).1)).head?
      = some '/' := by
  have hQspec := querySplit_spec (fragSplit (netlocSplit (schemeSplit u).2).2).1
  have hFspec := fragSplit_spec (netlocSplit (schemeSplit u).2).2
  set q1 := (querySplit (fragSplit (netlocSplit (schemeSplit u).2).2).1).1 with hq1d
  have hPJ := paramsJoin_split q1
  obtain ⟨t1, ht1, _⟩ := hFspec.2
  obtain ⟨t2, ht2, _⟩ := hQspec.2
  obtain ⟨ext, hext⟩ := hPJ.2.1
  have hq1ne : q1 ≠ [] := by
    intro hq1nil
    have h2 : paramsJoin (paramsSplit q1) ++ ext = [] := hext.symm.trans hq1nil
    exact hne (List.append_eq_nil.mp h2).1
  have hheadq := hPJ.2.2.resolve_left hne
  have hF1ne : (fragSplit (netlocSplit (schemeSplit u).2).2).1 ≠ [] := by
    intro hc
    have h2 : q1 ++ t2 = [] := ht2.symm.trans hc
    exact hq1ne (List.append_eq_nil.mp h2).1
  have hN2ne : (netlocSplit (schemeSplit u).2).2 ≠ [] := by
    intro hc
    have h2 : (fragSplit (netlocSplit (schemeSplit u).2).2).1 ++ t1 = []
      := ht1.symm.trans hc
    exact hF1ne (List.append_eq_nil.mp h2).1
  obtain ⟨y, hy, hsy⟩ := hrestN.resolve_left hN2ne
  have hh1 : (netlocSplit (schemeSplit u).2).2.head?
      = (fragSplit (netlocSplit (schemeSplit u).2).2).1.head? := by
    conv_lhs => rw [ht1]
    exact head_append_of_ne_nil _ _ hF1ne
  have hh2 : (fragSplit (netlocSplit (schemeSplit u).2).2).1.head? = q1.head? := by
    rw [ht2]
    exact head_append_of_ne_nil _ _ hq1ne
  have hqy : q1.head? = some y := by
    rw [← hh2, ← hh1]
    exact hy
  have hyq : y ∈ q1 := mem_of_head_eq y q1 hqy
  have hy_cases : y = '/' ∨ y = '?' ∨ y = '#' := by
    simpa [isNetlocStop, or_assoc] using hsy
  have hy2 : y = '/' := by
    rcases hy_cases with h | h | h
    · exact h
    · rw [h] at hyq
      exact absurd hyq hQspec.1
    · rw [h] at hyq
      have hmem : '#' ∈ (fragSplit (netlocSplit (schemeSplit u).2).2).1 := by
        rw [ht2]
        exact List.mem_append_left _ hyq
      exact absurd hmem hFspec.1
  rw [hheadq, hqy, hy2]

theorem reassemble_roundtrip (u q2 : Str) (hq2 : '#' ∉ q2) :
    urlparseM (urlunparseM (UrlParts.mk (urlparseM u).scheme (urlparseM u).netloc
        (urlparseM u).path (urlparseM u).params q2 (urlparseM u).fragment))
      = UrlParts.mk (urlparseM u).scheme (urlparseM u).netloc (urlparseM u).path
        (urlparseM u).params q2 (urlparseM u).fragment := by
  have hQspec := querySplit_spec (fragSplit (netlocSplit (schemeSplit u).2).2).1
  have hFspec := fragSplit_spec (netlocSplit (schemeSplit u).2).2
  have hPJ := paramsJoin_split
    (querySplit (fragSplit (netlocSplit (schemeSplit u).2).2).1).1
  refine unparse_reparse _ _ _ _ _ _ ?_ ?_ ?_ ?_ ?_ ?_ ?_ hq2
  · exact scheme_part_ok u
  · exact netloc_part_ok (schemeSplit u).2
  · exact hPJ.1
  · intro hm
    obtain ⟨ext, hext⟩ := hPJ.2.1
    obtain ⟨t2, ht2, _⟩ := hQspec.2
    apply hFspec.1
    rw [ht2]
    apply List.mem_append_left
    rw [hext]
    exact List.mem_append_left _ hm
  · intro hm
    obtain ⟨ext, hext⟩ := hPJ.2.1
    apply hQspec.1
    rw [hext]
    exact List.mem_append_left _ hm
  · intro hnl0
    rcases Decidable.em (paramsJoin (paramsSplit
        (querySplit (fragSplit (netlocSplit (schemeSplit u).2).2).1).1) = [])
      with h0 | h0
    · exact Or.inl h0
    · right
      rcases netlocSplit_spec (schemeSplit u).2 with ⟨_, heqN⟩ | ⟨_, _, hrestN⟩
      · exfalso
        apply hnl0
        show (netlocSplit (schemeSplit u).2).1 = []
        rw [heqN]
      · exact url0_head_slash u h0 hrestN
  · intro hs0 hn0 htk a b hab
    have hab2 : splitOnFirst ':' (paramsJoin (paramsSplit
        (querySplit (fragSplit (netlocSplit (schemeSplit u).2).2).1).1))
        = some (a, b) := hab
    obtain ⟨hd0, hna0⟩ := splitOnFirst_eq_some hab2
    rcases schemeSplit_spec u with ⟨heqS, hbadS⟩ |
      ⟨pre, rest2, _, _, _, ⟨c, cs, hpre, _⟩, heqS⟩
    · rcases netlocSplit_spec (schemeSplit u).2 with ⟨_, heqN⟩ | ⟨_, _, hrestN⟩
      · have hN2 : (netlocSplit (schemeSplit u).2).2 = u := by
          rw [heqN]
          show (schemeSplit u).2 = u
          rw [heqS]
        obtain ⟨t1, ht1, _⟩ := hFspec.2
        obtain ⟨t2, ht2, _⟩ := hQspec.2
        obtain ⟨ext, hext⟩ := hPJ.2.1
        have hu : u = paramsJoin (paramsSplit
            (querySplit (fragSplit (netlocSplit (schemeSplit u).2).2).1).1)
            ++ (ext ++ (t2 ++ t1)) := by
          conv_lhs => rw [← hN2]
          conv_lhs => rw [ht1]
          conv_lhs => rw [ht2]
          conv_lhs => rw [hext]
          simp [List.append_assoc]
        have hsp : splitOnFirst ':' u = some (a, b ++ (ext ++ (t2 ++ t1))) := by
          rw [hu, hd0]
          rw [show (a ++ ':' :: b) ++ (ext ++ (t2 ++ t1))
              = a ++ ':' :: (b ++ (ext ++ (t2 ++ t1))) from by simp]
          exact splitOnFirst_first ':' a _ hna0
        exact hbadS a _ hsp
      · clear hab hab2 hna0
        match a, hd0 with
        | [], _ => exact Or.inl rfl
        | y :: a2, hd0 =>
          have hu0ne : paramsJoin (paramsSplit
              (querySplit (fragSplit (netlocSplit (schemeSplit u).2).2).1).1)
              ≠ [] := by
            rw [hd0]
            simp
          have hhy : (paramsJoin (paramsSplit
              (querySplit (fragSplit (netlocSplit (schemeSplit u).2).2).1).1)).head?
              = some y := by
            rw [hd0]
            rfl
          have hslash2 := url0_head_slash u hu0ne hrestN
          rw [hhy] at hslash2
          have hy2 : y = '/' := by simpa using hslash2
          exact schemeBad_of_head y rfl (by rw [hy2]; decide)
    · exfalso
      have hs0b : (schemeSplit u).1 = [] := hs0
      rw [heqS, hpre] at hs0b
      simp [pyLower] at hs0b

theorem hash_not_in_urlencode : ∀ (l : List (Str × Str)), '#' ∉ urlencodeM l
  | [] => by simp [urlencodeM]
  | [(k, v)] => by
    show '#' ∉ quotePlus k ++ '=' :: quotePlus v
    intro h
    rcases List.mem_append.mp h with h | h
    · exact quotePlus_not_special k '#' (by decide) (by decide) (by decide)
        (by decide) h
    · rcases List.mem_cons.mp h with h | h
      · exact absurd h (by decide)
      · exact quotePlus_not_special v '#' (by decide) (by decide) (by decide)
          (by decide) h
  | (k, v) :: (k2, v2) :: rest => by
    show '#' ∉ (quotePlus k ++ '=' :: quotePlus v)
      ++ '&' :: urlencodeM ((k2, v2) :: rest)
    intro h
    rcases List.mem_append.mp h with h | h
    · rcases List.mem_append.mp h with h | h
      · exact quotePlus_not_special k '#' (by decide) (by decide) (by decide)
          (by decide) h
      · rcases List.mem_cons.mp h with h | h
        · exact absurd h (by decide)
        · exact quotePlus_not_special v '#' (by decide) (by decide) (by decide)
            (by decide) h
    · rcases List.mem_cons.mp h with h | h
      · exact absurd h (by decide)
      · exact hash_not_in_urlencode ((k2, v2) :: rest) h

theorem urlencode_ne_nil : ∀ (l : List (Str × Str)), l ≠ [] → urlencodeM l ≠ []
  | [], h => absurd rfl h
  | [(k, v)], _ => by
    show quotePlus k ++ '=' :: quotePlus v ≠ []
    simp
  | (k, v) :: (k2, v2) :: rest, _ => by
    show (quotePlus k ++ '=' :: quotePlus v)
      ++ '&' :: urlencodeM ((k2, v2) :: rest) ≠ []
    simp

/-- C10: URL canonicalization is idempotent: for every URL u, applying
canon_url_remove_noise to an already canonicalized URL returns it
unchanged, including the re-encoding of the kept query parameters. -/
theorem C10_canon_idempotent (u : Str) :
    canon_url_remove_noise (canon_url_remove_noise u) = canon_url_remove_noise u := by
  have hcanon : ∀ v, canon_url_remove_noise v
      = if (urlparseM v).query = [] then v
        else urlunparseM (UrlParts.mk (urlparseM v).scheme (urlparseM v).netloc
          (urlparseM v).path (urlparseM v).params
          (urlencodeM ((parse_qslM (urlparseM v).query).filter keepPair))
          (urlparseM v).fragment) := fun v => rfl
  by_cases hq : (urlparseM u).query = []
  · have h1 : canon_url_remove_noise u = u := by
      rw [hcanon]
      exact if_pos hq
    rw [h1]
    exact h1
  · have h1 : canon_url_remove_noise u
        = urlunparseM (UrlParts.mk (urlparseM u).scheme (urlparseM u).netloc
          (urlparseM u).path (urlparseM u).params
          (urlencodeM ((parse_qslM (urlparseM u).query).filter keepPair))
          (urlparseM u).fragment) := by
      rw [hcanon]
      exact if_neg hq
    rw [h1]
    have hrt := reassemble_roundtrip u
      (urlencodeM ((parse_qslM (urlparseM u).query).filter keepPair))
      (hash_not_in_urlencode _)
    have hqw : (urlparseM (urlunparseM (UrlParts.mk (urlparseM u).scheme
        (urlparseM u).netloc (urlparseM u).path (urlparseM u).params
        (urlencodeM ((parse_qslM (urlparseM u).query).filter keepPair))
        (urlparseM u).fragment))).query
        = urlencodeM ((parse_qslM (urlparseM u).query).filter keepPair) := by
      rw [hrt]
    by_cases hk : (parse_qslM (urlparseM u).query).filter keepPair = []
    · rw [hcanon]
      rw [if_pos (show _ = ([] : Str) from by rw [hqw, hk]; rfl)]
    · have hparse : parse_qslM (urlencodeM
          ((parse_qslM (urlparseM u).query).filter keepPair))
          = (parse_qslM (urlparseM u).query).filter keepPair :=
        parse_qsl_urlencode _ hk
      have hfilter : ((parse_qslM (urlparseM u).query).filter keepPair).filter
          keepPair = (parse_qslM (urlparseM u).query).filter keepPair := by
        rw [List.filter_filter]
        simp [Bool.and_self]
      have hqne : urlencodeM ((parse_qslM (urlparseM u).query).filter keepPair)
          ≠ [] := urlencode_ne_nil _ hk
      rw [hcanon]
      rw [if_neg (by rw [hqw]; exact hqne)]
      rw [hrt]
      show urlunparseM (UrlParts.mk (urlparseM u).scheme (urlparseM u).netloc
        (urlparseM u).path (urlparseM u).params
        (urlencodeM ((parse_qslM (urlencodeM ((parse_qslM
          (urlparseM u).query).filter keepPair))).filter keepPair))
        (urlparseM u).fragment) = _
      rw [hparse, hfilter]

/-! Model of the content extraction of src/main.py: absolutize with
urllib.parse.urljoin, the image whitelist filters, the login gate check,
parse_post over a parsed document, and the delivery loop of process. -/

/-- Whether the first string occurs as a contiguous substring of the
second, as the Python in operator on strings. -/
def isSubstrOf (needle : Str) : Str → Bool
  | [] => needle.isPrefixOf []
  | x :: xs => needle.isPrefixOf (x :: xs) || isSubstrOf needle xs

/-- Python truthiness of an optional string value: a or b keeps a when a
is a nonempty string and falls through to b otherwise. -/
def pyOr (a b : Option Str) : Option Str :=
  match a with
  | none => b
  | some s => if s = [] then b else some s

/-- An img element reduced to the four source attributes read by
src/main.py line 297 and src/crawler.py line 143. -/
structure ImgEl where
  src : Option Str
  dataSrc : Option Str
  dataOriginal : Option Str
  dataEcho : Option Str
deriving DecidableEq

/-- The attribute chain of src/main.py line 297:
img.get("src") or img.get("data-src") or img.get("data-original") or
img.get("data-echo"). -/
def chooseImgSrc (img : ImgEl) : Option Str :=
  pyOr (pyOr (pyOr img.src img.dataSrc) img.dataOriginal) img.dataEcho

/-- The attribute chain of src/crawler.py line 143:
img.get_attribute("data-original") or img.get_attribute("data-src") or
img.get_attribute("src"). -/
def crawlerImgSrc (img : ImgEl) : Option Str :=
  pyOr (pyOr img.dataOriginal img.dataSrc) img.src

/-- Python str.split on a single separator character, keeping empty
pieces: the empty string yields one empty piece. -/
def pySplitChar (c : Char) : Str → List Str
  | [] => [[]]
  | x :: xs =>
    if x = c then [] :: pySplitChar c xs
    else
      match pySplitChar c xs with
      | [] => [[x]]
      | l :: ls => (x :: l) :: ls

/-- Python "/".join. -/
def joinSlash : List Str → Str
  | [] => []
  | [s] => s
  | s :: rest => s ++ '/' :: joinSlash rest

/-- filter(None, segments[1:-1]) keeping the last element: drops empty
pieces except the final one. -/
def midAux : List Str → List Str
  | [] => []
  | [x] => [x]
  | x :: y :: r => if x = [] then midAux (y :: r) else x :: midAux (y :: r)

/-- segments with segments[1:-1] = filter(None, segments[1:-1]): the first
and last pieces are kept, empty middle pieces are dropped. -/
def midFilter : List Str → List Str
  | [] => []
  | a :: rest => a :: midAux rest

/-- urllib.parse.uses_relative. -/
def uses_relative : List Str :=
  [[], ("ftp").data, ("http").data, ("gopher").data, ("nntp").data, ("imap").data,
   ("wais").data, ("file").data, ("https").data, ("shttp").data, ("mms").data,
   ("prospero").data, ("rtsp").data, ("rtspu").data, ("sftp").data,
   ("svn").data, ("svn+ssh").data, ("ws").data, ("wss").data]

/-- urllib.parse.uses_netloc. -/
def uses_netloc : List Str :=
  [[], ("ftp").data, ("http").data, ("gopher").data, ("nntp").data, ("telnet").data,
   ("imap").data, ("wais").data, ("file").data, ("mms").data, ("https").data,
   ("shttp").data, ("snews").data, ("prospero").data, ("rtsp").data, ("rtspu").data,
   ("rsync").data, ("svn").data, ("svn+ssh").data, ("sftp").data, ("nfs").data,
   ("git").data, ("git+ssh").data, ("ws").data, ("wss").data, ("itms-services").data]

/-- urlparse with a default scheme, as urljoin calls it: the default is
used when the URL itself carries no scheme. -/
def urlparseDefM (defScheme : Str) (u : Str) : UrlParts :=
  let p := urlparseM u
  if p.scheme = [] then
    UrlParts.mk defScheme p.netloc p.path p.params p.query p.fragment
  else p

/-- Model of urllib.parse.urljoin. -/
def urljoinM (base url : Str) : Str :=
  if base = [] then url
  else if url = [] then base
  else
    let b := urlparseM base
    let p := urlparseDefM b.scheme url
    if p.scheme ≠ b.scheme ∨ p.scheme ∉ uses_relative then url
    else if p.scheme ∈ uses_netloc ∧ p.netloc ≠ [] then urlunparseM p
    else
      let netloc := if p.scheme ∈ uses_netloc then b.netloc else p.netloc
      if p.path = [] ∧ p.params = [] then
        let query := if p.query = [] then b.query else p.query
        urlunparseM (UrlParts.mk p.scheme netloc b.path b.params query p.fragment)
      else
        let base_parts0 := pySplitChar '/' b.path
        let base_parts :=
          if base_parts0.getLast? ≠ some [] then base_parts0.dropLast
          else base_parts0
        let segments :=
          if p.path.take 1 = ['/'] then pySplitChar '/' p.path
          else midFilter (base_parts ++ pySplitChar '/' p.path)
        let resolved := segments.foldl (fun acc seg =>
          if seg = ("..").data then acc.dropLast
          else if seg = (".").data then acc
          else acc ++ [seg]) []
        let resolved2 :=
          if segments.getLast? = some ((".").data)
              ∨ segments.getLast? = some (("..").data)
          then resolved ++ [[]] else resolved
        let newPath := if joinSlash resolved2 = [] then ['/'] else joinSlash resolved2
        urlunparseM (UrlParts.mk p.scheme netloc newPath p.params p.query p.fragment)

/-- From src/main.py, absolutize. -/
def absolutize (base_url url : Str) : Str :=
  if url = [] then []
  else if (("//").data).isPrefixOf url then ("https:").data ++ url
  else urljoinM base_url url

/-- The hostname property of a parse result: the netloc after the last
at sign, before the port, lowercased. -/
def hostnameM (netloc : Str) : Str :=
  let hostinfo := (netloc.reverse.takeWhile (fun c => c ≠ '@')).reverse
  match splitOnFirst '[' hostinfo with
  | some (_, bracketed) =>
    match splitOnFirst ']' bracketed with
    | some (h, _) => pyLower h
    | none => pyLower bracketed
  | none =>
    match splitOnFirst ':' hostinfo with
    | some (h, _) => pyLower h
    | none => pyLower hostinfo

/-- From src/main.py, EXCLUDE_IMAGE_SUBSTRINGS. -/
def EXCLUDE_IMAGE_SUBSTRINGS : List Str :=
  [("/logo/").data, ("/banner/").data, ("/ads/").data, ("/noimage").data,
   ("/favicon").data, ("/thumb/").data, ("/placeholder/").data, ("/loading").data,
   ((".svg")).data, ("/img/level/").data, ("mb3_").data, ("avdbs_logo").data,
   ("main-search").data, ("new_9x9w.png").data, ("/img/19cert/").data,
   ("19_cert").data, ("19_popup").data]

/-- From src/main.py, is_excluded_image. -/
def is_excluded_image (url : Str) : Bool :=
  let low := pyLower url
  EXCLUDE_IMAGE_SUBSTRINGS.any (fun h => isSubstrOf h low)

/-- From src/main.py, ALLOWED_IMG_DOMAINS. -/
def ALLOWED_IMG_DOMAINS : List Str :=
  [("avdbs.com").data, ("www.avdbs.com").data, ("i1.avdbs.com").data]

/-- The alternatives of CONTENT_PATH_ALLOW_RE, a case-insensitive search
for one of these literal path pieces. -/
def CONTENT_PATH_ALLOW : List Str :=
  [("/data/").data, ("/upload/").data, ("/board/").data, ("/files/").data,
   ("/file/").data, ("/attach/").data]

def content_path_allow (path : Str) : Bool :=
  CONTENT_PATH_ALLOW.any (fun h => isSubstrOf h (pyLower path))

/-- From src/main.py, is_content_image. -/
def is_content_image (url : Str) : Bool :=
  let u := urlparseM url
  let host := hostnameM u.netloc
  if host ∈ ALLOWED_IMG_DOMAINS then
    if content_path_allow u.path then !(is_excluded_image url) else false
  else false

/-- The image extensions of the anchor fallback pattern of src/main.py
line 305, each followed by a question mark or the end of the string. -/
def IMG_EXT_PATTERNS : List Str :=
  [(".jpg").data, (".jpeg").data, (".png").data, (".gif").data, (".webp").data]

def anchor_img_match (h : Str) : Bool :=
  let low := pyLower h
  IMG_EXT_PATTERNS.any (fun e => isSubstrOf (e ++ ['?']) low || e.isSuffixOf low)

/-- A fetched post document reduced to what src/main.py's parse_post
reads: the response URL, the stripped title string when present, the
whole-page text, the two login form inputs, the container's img elements
and anchor hrefs, and the summary summarize_text produces from the
container. -/
structure Doc where
  finalUrl : Str
  titleOpt : Option Str
  textAll : Str
  hasMbId : Bool
  hasMbPassword : Bool
  imgs : List ImgEl
  anchors : List Str
  summary : Str
deriving DecidableEq

/-- From src/main.py, is_login_gate. -/
def is_login_gate (d : Doc) : Bool :=
  if isSubstrOf (("/login").data) d.finalUrl then true
  else if isSubstrOf (("AVDBS").data) (d.titleOpt.getD [])
      && isSubstrOf (("로그인").data) (d.titleOpt.getD []) then true
  else if d.hasMbId && d.hasMbPassword then true
  else if isSubstrOf (("성인 인증").data) (d.textAll.take 2000)
      && isSubstrOf (("로그인").data) (d.textAll.take 2000) then true
  else false

/-- list(dict.fromkeys(xs)): deduplication keeping first occurrences. -/
def dedupAux (seen : List Str) : List Str → List Str
  | [] => []
  | x :: xs => if x ∈ seen then dedupAux seen xs else x :: dedupAux (x :: seen) xs

def dedupKeepFirst (l : List Str) : List Str := dedupAux [] l

/-- The image list built by src/main.py parse_post lines 295-309: the
container's img elements through the attribute chain, absolutize and the
content-image whitelist; the anchor fallback when that list is empty; and
deduplication keeping first occurrences. -/
def extractImages (url : Str) (d : Doc) : List Str :=
  let images0 := d.imgs.filterMap (fun img =>
    match chooseImgSrc img with
    | none => none
    | some s =>
      if s = [] then none
      else
        let full := absolutize url s
        if is_content_image full then some full else none)
  let images1 :=
    if images0 = [] then
      d.anchors.filterMap (fun href =>
        let h := pyStrip href
        if anchor_img_match h then
          let full := absolutize url h
          if is_content_image full then some full else none
        else none)
    else images0
  dedupKeepFirst images1

structure PostData where
  title : Str
  summary : Str
  images : List Str
deriving DecidableEq

/-- From src/main.py, parse_post over a fetched document: the gate check,
then the image pipeline, then the weak-content rejection. -/
def parse_post (url : Str) (d : Doc) : Option PostData :=
  if is_login_gate d then none
  else
    let summary := d.summary
    let title := d.titleOpt.getD (("(제목 없음)").data)
    let images := extractImages url d
    if summary.length < 60 ∧ images = [] then none
    else some (PostData.mk title summary images)

/-- The outcome of the page fetch at the head of parse_post: a parsed
document, or an exception raised by the fetch or the parsing. -/
inductive FetchOutcome where
  | ok (d : Doc)
  | exn
deriving DecidableEq

/-- One entry of to_send in src/main.py process: the post URL, its dedup
key, and what fetching its page yields. -/
structure PendingPost where
  url : Str
  seenKey : Str
  fetch : FetchOutcome
deriving DecidableEq

/-- The observable actions of the delivery loop of src/main.py process:
a text notification, a photo upload, and the single ledger append. -/
inductive Ev where
  | deliverText (title summary url : Str)
  | sendPhoto (img : Str)
  | ledgerAppend (keys : List Str)
deriving DecidableEq

/-- The delivery loop of src/main.py process lines 357-372: per post the
text message, then the first ten images each downloaded and sent when the
download succeeds, then the in-memory sent.append of the key; an uncaught
exception from parse_post aborts the loop. The result is the events, the
sent keys, and whether the loop was aborted. -/
def processLoop (downloadOk : Str → Bool) :
    List PendingPost → List Ev × List Str × Bool
  | [] => ([], [], false)
  | p :: rest =>
    match p.fetch with
    | FetchOutcome.exn => ([], [], true)
    | FetchOutcome.ok d =>
      match parse_post p.url d with
      | none => processLoop downloadOk rest
      | some pd =>
        let evs := Ev.deliverText pd.title pd.summary p.url ::
          (pd.images.take 10).filterMap (fun img =>
            if downloadOk img then some (Ev.sendPhoto img) else none)
        let r := processLoop downloadOk rest
        (evs ++ r.1, p.seenKey :: r.2.1, r.2.2)

/-- src/main.py process from line 357: the delivery loop followed by the
single append_seen of the sent keys, which is reached only when no
exception aborted the loop. -/
def process (downloadOk : Str → Bool) (toSend : List PendingPost) : List Ev :=
  let r := processLoop downloadOk toSend
  if r.2.2 then r.1 else r.1 ++ [Ev.ledgerAppend r.2.1]

/-- A listing link as src/crawler.py's get_new_posts reads it: whether it
contains the notice marker image, its href attribute, and its title
text. -/
structure CLink where
  isNotice : Bool
  href : Option Str
  title : Str
deriving DecidableEq

/-- From src/crawler.py line 97: prefix the site host unless the href is
already absolute. -/
def crawlerFullUrl (href : Str) : Str :=
  if (("http").data).isPrefixOf href then href
  else ("https://www.avdbs.com").data ++ href

/-- The loop of src/crawler.py get_new_posts lines 86-109: notices and
empty hrefs are skipped, history entries are skipped, and the loop breaks
once five posts are collected. -/
def gnpAux (history : List Str) : List CLink → List (Str × Str) → List (Str × Str)
  | [], acc => acc
  | link :: rest, acc =>
    if link.isNotice then gnpAux history rest acc
    else
      match link.href with
      | none => gnpAux history rest acc
      | some h =>
        if h = [] then gnpAux history rest acc
        else
          let full := crawlerFullUrl h
          if full ∈ history then gnpAux history rest acc
          else
            let acc2 := acc ++ [(link.title, full)]
            if 5 ≤ acc2.length then acc2 else gnpAux history rest acc2

/-- From src/crawler.py, get_new_posts: an anti-bot block yields the
empty list, otherwise the link loop runs. -/
def get_new_posts (pageTitle : Str) (links : List CLink) (history : List Str) :
    List (Str × Str) :=
  if isSubstrOf (("Access Denied").data) pageTitle
      || isSubstrOf (("Cloudflare").data) pageTitle then []
  else gnpAux history links []

theorem gnpAux_cons (history : List Str) (link : CLink) (rest : List CLink)
    (acc : List (Str × Str)) :
    gnpAux history (link :: rest) acc
      = if link.isNotice then gnpAux history rest acc
        else
          match link.href with
          | none => gnpAux history rest acc
          | some h =>
            if h = [] then gnpAux history rest acc
            else
              if crawlerFullUrl h ∈ history then gnpAux history rest acc
              else
                if 5 ≤ (acc ++ [(link.title, crawlerFullUrl h)]).length
                then acc ++ [(link.title, crawlerFullUrl h)]
                else gnpAux history rest (acc ++ [(link.title, crawlerFullUrl h)]) :=
  rfl

theorem gnpAux_filter_notice (history : List Str) :
    ∀ (links : List CLink) (acc : List (Str × Str)),
    gnpAux history (links.filter (fun l => !l.isNotice)) acc
      = gnpAux history links acc
  | [], _ => rfl
  | link :: rest, acc => by
    by_cases hn : link.isNotice
    · rw [show (link :: rest).filter (fun l => !l.isNotice)
          = rest.filter (fun l => !l.isNotice) from by simp [hn]]
      rw [gnpAux_filter_notice history rest acc]
      rw [gnpAux_cons, if_pos hn]
    · rw [show (link :: rest).filter (fun l => !l.isNotice)
          = link :: rest.filter (fun l => !l.isNotice) from by simp [hn]]
      rw [gnpAux_cons, gnpAux_cons, if_neg hn, if_neg hn]
      cases link.href with
      | none => exact gnpAux_filter_notice history rest acc
      | some h =>
        show (if h = [] then gnpAux history (List.filter (fun l => !l.isNotice) rest) acc
            else if crawlerFullUrl h ∈ history
              then gnpAux history (List.filter (fun l => !l.isNotice) rest) acc
            else if 5 ≤ (acc ++ [(link.title, crawlerFullUrl h)]).length
              then acc ++ [(link.title, crawlerFullUrl h)]
              else gnpAux history (List.filter (fun l => !l.isNotice) rest)
                (acc ++ [(link.title, crawlerFullUrl h)]))
          = (if h = [] then gnpAux history rest acc
            else if crawlerFullUrl h ∈ history then gnpAux history rest acc
            else if 5 ≤ (acc ++ [(link.title, crawlerFullUrl h)]).length
              then acc ++ [(link.title, crawlerFullUrl h)]
              else gnpAux history rest (acc ++ [(link.title, crawlerFullUrl h)]))
        by_cases he : h = []
        · rw [if_pos he, if_pos he]
          exact gnpAux_filter_notice history rest acc
        · rw [if_neg he, if_neg he]
          by_cases hm : crawlerFullUrl h ∈ history
          · rw [if_pos hm, if_pos hm]
            exact gnpAux_filter_notice history rest acc
          · rw [if_neg hm, if_neg hm]
            by_cases hl : 5 ≤ (acc ++ [(link.title, crawlerFullUrl h)]).length
            · rw [if_pos hl, if_pos hl]
            · rw [if_neg hl, if_neg hl]
              exact gnpAux_filter_notice history rest _

/-- C6: a listing entry flagged as a notice never appears in the candidate
list get_new_posts returns: the result over any link list equals the
result over the same list with all notice entries removed, regardless of
their positions. -/
theorem C6_notice_never_listed (pageTitle : Str) (links : List CLink)
    (history : List Str) :
    get_new_posts pageTitle links history
      = get_new_posts pageTitle (links.filter (fun l => !l.isNotice)) history := by
  unfold get_new_posts
  by_cases hb : (isSubstrOf (("Access Denied").data) pageTitle
      || isSubstrOf (("Cloudflare").data) pageTitle) = true
  · rw [if_pos hb, if_pos hb]
  · rw [if_neg hb, if_neg hb]
    exact (gnpAux_filter_notice history links []).symm

theorem processLoop_cons (df : Str → Bool) (p : PendingPost)
    (rest : List PendingPost) :
    processLoop df (p :: rest)
      = match p.fetch with
        | FetchOutcome.exn => ([], [], true)
        | FetchOutcome.ok d =>
          match parse_post p.url d with
          | none => processLoop df rest
          | some pd =>
            ((Ev.deliverText pd.title pd.summary p.url ::
              (pd.images.take 10).filterMap (fun img =>
                if df img then some (Ev.sendPhoto img) else none))
              ++ (processLoop df rest).1,
             p.seenKey :: (processLoop df rest).2.1,
             (processLoop df rest).2.2) := rfl

theorem processLoop_skip_none (df : Str → Bool) (p : PendingPost) (d : Doc)
    (hf : p.fetch = FetchOutcome.ok d) (hp : parse_post p.url d = none) :
    ∀ (pre rest : List PendingPost),
    processLoop df (pre ++ p :: rest) = processLoop df (pre ++ rest)
  | [], rest => by
    simp only [List.nil_append, processLoop_cons, hf, hp]
  | q :: pre, rest => by
    have ih := processLoop_skip_none df p d hf hp pre rest
    show processLoop df (q :: (pre ++ p :: rest))
      = processLoop df (q :: (pre ++ rest))
    rw [processLoop_cons, processLoop_cons, ih]

/-- C7: a document matching a gate-detection signal makes parse_post
return none, and a gated post contributes nothing to a run: the delivery
loop produces the same events, the same ledger keys and the same final
ledger append as if the post were absent, so the notifier is never invoked
for it and its key is never appended. -/
theorem C7_gate_short_circuit (df : Str → Bool) (pre rest : List PendingPost)
    (p : PendingPost) (d : Doc) (hf : p.fetch = FetchOutcome.ok d)
    (hg : is_login_gate d = true) :
    parse_post p.url d = none
    ∧ process df (pre ++ p :: rest) = process df (pre ++ rest) := by
  have hnone : parse_post p.url d = none := by
    simp [parse_post, hg]
  refine ⟨hnone, ?_⟩
  unfold process
  rw [processLoop_skip_none df p d hf hnone pre rest]

def c7doc : Doc :=
  Doc.mk (("https://www.avdbs.com/login?rurl=1").data) none [] false false [] [] []

def c7post : PendingPost :=
  PendingPost.mk (("https://www.avdbs.com/board/4242").data)
    (("avdbs:t50:https://www.avdbs.com/board/4242").data) (FetchOutcome.ok c7doc)

theorem C7_gate_short_circuit_witness :
    parse_post c7post.url c7doc = none
    ∧ process (fun _ => true) ([] ++ c7post :: []) = process (fun _ => true) ([] ++ []) :=
  C7_gate_short_circuit (fun _ => true) [] [] c7post c7doc rfl (by decide)

/-- C9: a post whose summary is shorter than 60 characters and whose
extracted image list is empty is rejected: parse_post returns none. -/
theorem C9_weak_content_rejected (url : Str) (d : Doc)
    (hsum : d.summary.length < 60) (himg : extractImages url d = []) :
    parse_post url d = none := by
  cases hg : is_login_gate d with
  | true => simp [parse_post, hg]
  | false => simp [parse_post, hg, hsum, himg]

def c9doc : Doc :=
  Doc.mk (("https://www.avdbs.com/board/77").data) (some (("AVDBS").data))
    [] false false [] [] (("short").data)

theorem C9_weak_content_rejected_witness :
    parse_post (("https://www.avdbs.com/board/77").data) c9doc = none :=
  C9_weak_content_rejected _ _ (by decide) (by rfl)

def c8img : ImgEl :=
  ImgEl.mk (some (("/data/eager.jpg").data)) (some (("/data/lazy.jpg").data))
    none none

def c8doc : Doc :=
  Doc.mk (("https://www.avdbs.com/board/99").data) none [] false false
    [c8img] [] []

def c8url : Str := ("https://www.avdbs.com/board/99").data

/-- C8 counterexample: an img element carrying both a nonempty lazy-load
data-src attribute and a nonempty eager src attribute: the attribute chain
of src/main.py line 297 picks the eager src value, and the extracted image
list of parse_post carries the absolutized eager URL, not the lazy one. -/
theorem C8_counterexample :
    c8img.dataSrc = some (("/data/lazy.jpg").data)
    ∧ c8img.src = some (("/data/eager.jpg").data)
    ∧ chooseImgSrc c8img = some (("/data/eager.jpg").data)
    ∧ extractImages c8url c8doc
      = [("https://www.avdbs.com/data/eager.jpg").data] :=
  ⟨rfl, rfl, rfl, rfl⟩

/-- C8 amended: the two variants disagree on attribute preference: the
chain of src/main.py line 297 returns the eager src whenever it is a
nonempty string, consulting lazy-load attributes only as fallbacks, while
the chain of src/crawler.py line 143 returns the lazy data-original
attribute first whenever it is a nonempty string. -/
theorem C8_attribute_order :
    (∀ (img : ImgEl) (s : Str), img.src = some s → s ≠ [] →
      chooseImgSrc img = some s)
    ∧ (∀ (img : ImgEl) (s : Str), img.dataOriginal = some s → s ≠ [] →
      crawlerImgSrc img = some s) := by
  constructor
  · intro img s hs hne
    have key : ∀ b, pyOr (some s) b = some s := by
      intro b
      show (if s = [] then b else some s) = some s
      rw [if_neg hne]
    show pyOr (pyOr (pyOr img.src img.dataSrc) img.dataOriginal) img.dataEcho
      = some s
    rw [hs, key, key, key]
  · intro img s hs hne
    have key : ∀ b, pyOr (some s) b = some s := by
      intro b
      show (if s = [] then b else some s) = some s
      rw [if_neg hne]
    show pyOr (pyOr img.dataOriginal img.dataSrc) img.src = some s
    rw [hs, key, key]

theorem C8_attribute_order_witness :
    chooseImgSrc (ImgEl.mk (some (("e.jpg").data)) (some (("l.jpg").data))
        none none) = some (("e.jpg").data)
    ∧ crawlerImgSrc (ImgEl.mk (some (("e.jpg").data)) (some (("l.jpg").data))
        (some (("o.jpg").data)) none) = some (("o.jpg").data) :=
  ⟨C8_attribute_order.1 _ _ rfl (by decide),
   C8_attribute_order.2 _ _ rfl (by decide)⟩

def c4img (name : Str) : ImgEl := ImgEl.mk (some name) none none none

def c4doc : Doc :=
  Doc.mk (("https://www.avdbs.com/board/777").data) none [] false false
    [c4img (("/data/p01.jpg").data), c4img (("/data/p02.jpg").data),
     c4img (("/data/p03.jpg").data), c4img (("/data/p04.jpg").data),
     c4img (("/data/p05.jpg").data), c4img (("/data/p06.jpg").data),
     c4img (("/data/p07.jpg").data), c4img (("/data/p08.jpg").data),
     c4img (("/data/p09.jpg").data), c4img (("/data/p10.jpg").data),
     c4img (("/data/p11.jpg").data)] [] []

def c4url : Str := ("https://www.avdbs.com/board/777").data

/-- C4 counterexample: a document with eleven distinct whitelisted content
images: parse_post returns a post whose images list has length eleven, so
the extractor's returned media list is not capped at ten. -/
theorem C4_counterexample :
    (match parse_post c4url c4doc with
      | some pd => pd.images.length
      | none => 0) = 11 := rfl

/-- C4 amended: the cap of ten is applied at delivery, not extraction: in
the delivery loop of process, a single post leads to at most ten photo
uploads, whatever the extractor returned and however downloads fare. -/
theorem C4_delivery_cap (df : Str → Bool) (p : PendingPost) :
    ((process df [p]).filter (fun ev => match ev with
      | Ev.sendPhoto _ => true
      | _ => false)).length ≤ 10 := by
  cases hf : p.fetch with
  | exn => simp [process, processLoop, hf]
  | ok d =>
    cases hp : parse_post p.url d with
    | none => simp [process, processLoop, hf, hp]
    | some pd =>
      simp only [process, processLoop_cons, hf, hp, processLoop]
      simp only [List.append_nil, List.filter_append, List.filter_cons,
        List.length_append]
      simp
      refine le_trans (List.length_filter_le _ _) ?_
      refine le_trans (List.length_filterMap_le _ _) ?_
      rw [List.length_take]
      omega

/-- Whether a pending post's extraction succeeds: its fetch parsed and
parse_post returned a post. -/
def extractionOk (p : PendingPost) : Bool :=
  match p.fetch with
  | FetchOutcome.ok d => (parse_post p.url d).isSome
  | FetchOutcome.exn => false

theorem processLoop_no_exn (df : Str → Bool) :
    ∀ (l : List PendingPost), (∀ p ∈ l, p.fetch ≠ FetchOutcome.exn) →
    (processLoop df l).2.2 = false
    ∧ (processLoop df l).2.1 = (l.filter extractionOk).map PendingPost.seenKey
  | [], _ => ⟨rfl, rfl⟩
  | p :: rest, hok => by
    have hrest := processLoop_no_exn df rest
      (fun q hq => hok q (List.mem_cons_of_mem _ hq))
    cases hf : p.fetch with
    | exn => exact absurd hf (hok p (List.mem_cons_self _ _))
    | ok d =>
      have hex : extractionOk p = (parse_post p.url d).isSome := by
        unfold extractionOk
        rw [hf]
      cases hp : parse_post p.url d with
      | none =>
        constructor
        · simp only [processLoop_cons, hf, hp]
          exact hrest.1
        · simp only [processLoop_cons, hf, hp, List.filter_cons, hex,
            Option.isSome_none]
          simp only [Bool.false_eq_true, if_false]
          exact hrest.2
      | some pd =>
        constructor
        · simp only [processLoop_cons, hf, hp]
          exact hrest.1
        · simp only [processLoop_cons, hf, hp, List.filter_cons, hex,
            Option.isSome_some, if_true]
          simp only [List.map_cons]
          rw [hrest.2]

theorem no_ledger_in_loop (df : Str → Bool) :
    ∀ (l : List PendingPost) (ks : List Str),
    Ev.ledgerAppend ks ∉ (processLoop df l).1
  | [], ks => by simp [processLoop]
  | p :: rest, ks => by
    cases hf : p.fetch with
    | exn => simp [processLoop_cons, hf]
    | ok d =>
      cases hp : parse_post p.url d with
      | none =>
        simp only [processLoop_cons, hf, hp]
        exact no_ledger_in_loop df rest ks
      | some pd =>
        simp only [processLoop_cons, hf, hp]
        intro hm
        simp only [List.cons_append, List.mem_cons, List.mem_append] at hm
        rcases hm with h | h | h
        · simp at h
        · obtain ⟨x, _, hxx⟩ := List.mem_filterMap.mp h
          by_cases hdf : df x = true <;> simp [hdf] at hxx
        · exact no_ledger_in_loop df rest ks h

/-- C1 amended: the ledger write is batched: when no extraction raises,
the run emits the delivery events of the loop followed by one single
ledger append holding, in order, the keys of exactly those posts whose
extraction succeeded — independently of every download or delivery
outcome — and no ledger append occurs anywhere inside the loop. -/
theorem C1_batched_ledger_append (df : Str → Bool) (toSend : List PendingPost)
    (hok : ∀ p ∈ toSend, p.fetch ≠ FetchOutcome.exn) :
    process df toSend
      = (processLoop df toSend).1
        ++ [Ev.ledgerAppend ((toSend.filter extractionOk).map PendingPost.seenKey)]
    ∧ ∀ ks, Ev.ledgerAppend ks ∉ (processLoop df toSend).1 := by
  obtain ⟨hab, hsent⟩ := processLoop_no_exn df toSend hok
  constructor
  · show (if (processLoop df toSend).2.2 = true then (processLoop df toSend).1
        else (processLoop df toSend).1
          ++ [Ev.ledgerAppend (processLoop df toSend).2.1]) = _
    rw [hab, hsent]
    rfl
  · intro ks
    exact no_ledger_in_loop df toSend ks

def c1summary : Str :=
  ("aaaaaaaaaaaaaaaaaaaaaaaaaaaaaaaaaaaaaaaaaaaaaaaaaaaaaaaaaaaa").data

def c1doc : Doc :=
  Doc.mk (("https://www.avdbs.com/board/1001").data) none [] false false
    [] [] c1summary

def c1post1 : PendingPost :=
  PendingPost.mk (("https://www.avdbs.com/board/1001").data)
    (("avdbs:t50:https://www.avdbs.com/board/1001").data) (FetchOutcome.ok c1doc)

def c1post2 : PendingPost :=
  PendingPost.mk (("https://www.avdbs.com/board/1002").data)
    (("avdbs:t50:https://www.avdbs.com/board/1002").data) (FetchOutcome.ok c1doc)

/-- C1 counterexample: two posts whose extraction succeeds: the run's
event trace carries both delivery events and then one single ledger append
holding both keys at the very end — no key is appended between the
delivery of the first post and the processing of the second. -/
theorem C1_counterexample :
    process (fun _ => false) [c1post1, c1post2]
      = [Ev.deliverText (("(제목 없음)").data) c1summary c1post1.url,
         Ev.deliverText (("(제목 없음)").data) c1summary c1post2.url,
         Ev.ledgerAppend [c1post1.seenKey, c1post2.seenKey]] := rfl

theorem C1_batched_ledger_append_witness :
    process (fun _ => false) [c1post1]
      = (processLoop (fun _ => false) [c1post1]).1
        ++ [Ev.ledgerAppend ((([c1post1]).filter extractionOk).map
            PendingPost.seenKey)]
    ∧ Ev.ledgerAppend [c1post1.seenKey]
      ∉ (processLoop (fun _ => false) [c1post1]).1 :=
  ⟨(C1_batched_ledger_append (fun _ => false) [c1post1] (by decide)).1,
   (C1_batched_ledger_append (fun _ => false) [c1post1] (by decide)).2
     [c1post1.seenKey]⟩

theorem processLoop_abort (df : Str → Bool) :
    ∀ (pre : List PendingPost) (p : PendingPost) (rest : List PendingPost),
    p.fetch = FetchOutcome.exn → (∀ q ∈ pre, q.fetch ≠ FetchOutcome.exn) →
    processLoop df (pre ++ p :: rest)
      = ((processLoop df pre).1, (processLoop df pre).2.1, true)
  | [], p, rest, hexn, _ => by
    simp only [List.nil_append, processLoop_cons, hexn]
    rfl
  | q :: pre, p, rest, hexn, hpre => by
    have hq := hpre q (List.mem_cons_self _ _)
    cases hf : q.fetch with
    | exn => exact absurd hf hq
    | ok d =>
      have ih := processLoop_abort df pre p rest hexn
        (fun r hr => hpre r (List.mem_cons_of_mem _ hr))
      cases hp : parse_post q.url d with
      | none =>
        show processLoop df (q :: (pre ++ p :: rest)) = _
        simp only [processLoop_cons, hf, hp, ih]
      | some pd =>
        show processLoop df (q :: (pre ++ p :: rest)) = _
        simp only [processLoop_cons, hf, hp, ih]

/-- C2 amended: parse_post in src/main.py catches nothing: an exception
raised while fetching or parsing one post propagates out of the delivery
loop and aborts the run: the sibling posts after it are never processed
and the final batched ledger append is never reached, so no key at all —
not even of the posts already delivered — is appended in that run. -/
theorem C2_exception_aborts_run (df : Str → Bool)
    (pre rest : List PendingPost) (p : PendingPost)
    (hexn : p.fetch = FetchOutcome.exn)
    (hpre : ∀ q ∈ pre, q.fetch ≠ FetchOutcome.exn) :
    process df (pre ++ p :: rest) = (processLoop df pre).1
    ∧ ∀ ks, Ev.ledgerAppend ks ∉ process df (pre ++ p :: rest) := by
  have habort := processLoop_abort df pre p rest hexn hpre
  constructor
  · show (if (processLoop df (pre ++ p :: rest)).2.2 = true
        then (processLoop df (pre ++ p :: rest)).1
        else (processLoop df (pre ++ p :: rest)).1
          ++ [Ev.ledgerAppend (processLoop df (pre ++ p :: rest)).2.1]) = _
    rw [habort]
    rfl
  · intro ks
    show Ev.ledgerAppend ks ∉ (if (processLoop df (pre ++ p :: rest)).2.2 = true
        then (processLoop df (pre ++ p :: rest)).1
        else (processLoop df (pre ++ p :: rest)).1
          ++ [Ev.ledgerAppend (processLoop df (pre ++ p :: rest)).2.1])
    rw [habort]
    exact no_ledger_in_loop df pre ks

def c2exnPost : PendingPost :=
  PendingPost.mk (("https://www.avdbs.com/board/2001").data)
    (("avdbs:t50:https://www.avdbs.com/board/2001").data) FetchOutcome.exn

def c2goodPost : PendingPost :=
  PendingPost.mk (("https://www.avdbs.com/board/2002").data)
    (("avdbs:t50:https://www.avdbs.com/board/2002").data) (FetchOutcome.ok c1doc)

/-- C2 counterexample: a post whose fetch raises, followed by a healthy
sibling: the run's trace is empty — the sibling is never delivered and no
ledger append happens — although the sibling alone would be delivered and
its key appended, so the exception is not converted into a None for the
failing post only. -/
theorem C2_counterexample :
    process (fun _ => false) [c2exnPost, c2goodPost] = []
    ∧ process (fun _ => false) [c2goodPost]
      = [Ev.deliverText (("(제목 없음)").data) c1summary c2goodPost.url,
         Ev.ledgerAppend [c2goodPost.seenKey]] :=
  ⟨rfl, rfl⟩

theorem C2_exception_aborts_run_witness :
    process (fun _ => false) ([c2goodPost] ++ c2exnPost :: [])
      = (processLoop (fun _ => false) [c2goodPost]).1
    ∧ Ev.ledgerAppend [c2goodPost.seenKey]
      ∉ process (fun _ => false) ([c2goodPost] ++ c2exnPost :: []) :=
  ⟨(C2_exception_aborts_run (fun _ => false) [c2goodPost] [] c2exnPost rfl
      (by decide)).1,
   (C2_exception_aborts_run (fun _ => false) [c2goodPost] [] c2exnPost rfl
      (by decide)).2 [c2goodPost.seenKey]⟩
